import Mathlib

/-!
# Verification of the tycho-indexer versioned delta-reconstruction layer

Shallow embedding of the two source files under scrutiny:

* `src/storage/postgres/contract.rs` — the directional slot-delta algorithm
  (`get_slots_delta`) and version resolution (`version_to_ts`);
* `tycho-indexer/src/extractor/evm/storage.rs` — the `Storable*` mapping
  contracts between EVM domain entities and persisted rows.

Modelling conventions:

* byte strings (`Vec<u8>`, `tycho_types::Bytes`, `H160`, `H256`) are `List Nat`
  with every entry a byte value; `U256` values are `Nat`; machine integers
  `i64`/`u64`/`i32`/`u32` are `Int`/`Nat` with the `as`-casts made explicit as
  wrap-around functions; timestamps (`NaiveDateTime`) are `Int` and are only
  ever compared, never decomposed;
* the relational store is a record of row lists; the diesel query built in
  `get_slots_delta` (filter / order_by / distinct_on / select) is embedded by
  its SQL semantics: filter the joined rows, stable-sort them by the ORDER BY
  key, keep the first row of every `(contract_id, slot)` group, project the
  selected columns;
* fallible Rust code returns `Except`; the `.unwrap()` on the range query is
  a distinct `crash` outcome (a Rust panic is neither `Ok` nor `Err`);
* `HashMap` is an association list with overwrite-on-insert semantics.
-/

set_option maxHeartbeats 1600000

namespace Tycho

/-- Raw byte strings (`Vec<u8>` / `tycho_types::Bytes`). Each entry is one byte. -/
abbrev Bytes := List Nat

/-- `ethers::types::U256::from_big_endian`: interpret a byte string as a
big-endian unsigned integer. -/
def fromBigEndian (b : Bytes) : Nat := b.foldl (fun acc x => acc * 256 + x) 0

/-- Fixed-width big-endian encoding of a `U256`-style value into `k` bytes
(the external 256-bit codec of the spec, used by `Balance::from(U256)` and
`U256::into::<Bytes>`). -/
def toBEbytes : Nat → Nat → Bytes
  | 0, _ => []
  | k + 1, n => toBEbytes k (n / 256) ++ [n % 256]

/-- Rust `as`-cast from an unsigned `w`-bit integer to the signed `w`-bit
interpretation of the same bit pattern. -/
def uAsI (w : Nat) (n : Nat) : Int :=
  if n % 2 ^ w < 2 ^ (w - 1) then Int.ofNat (n % 2 ^ w)
  else Int.ofNat (n % 2 ^ w) - Int.ofNat (2 ^ w)

/-- Rust `as`-cast from a signed integer to the unsigned `w`-bit
interpretation of the same bit pattern. -/
def iAsU (w : Nat) (i : Int) : Nat := (i % Int.ofNat (2 ^ w)).toNat

/-- One hexadecimal digit, lower case (as produced by `hex::encode`). -/
def hexChar (n : Nat) : Char := if n < 10 then Char.ofNat (48 + n) else Char.ofNat (87 + n)

/-- `hex::encode`: lower-case hexadecimal rendering of a byte string. -/
def hexEncode (b : Bytes) : String :=
  String.mk (b.foldr (fun x acc => hexChar (x / 16) :: hexChar (x % 16) :: acc) [])

/-- The error taxonomy of the storage layer (`StorageError`), restricted to the
kinds the embedded code constructs: `NotFound`, `DecodeError` and the
store-failure passthrough. -/
inductive StorageError : Type where
  | notFound (entity id : String)
  | decodeError (msg : String)
  | storeFailure (msg : String)
deriving DecidableEq, Repr

/-- Modelled from the spec: `StorageError::from` on a diesel store error — the
spec ("ERROR HANDLING DESIGN") defines the result as the StoreFailure kind,
"underlying I/O failure from the external store, passed through without
reinterpretation"; the conversion itself lives outside the given sources. -/
def StorageError.fromStoreError (msg : String) : StorageError := .storeFailure msg

/-- `models::Chain` — only the variant exercised by the given sources. -/
inductive Chain : Type where
  | ethereum
deriving DecidableEq, Repr

/-- One row of the `contract` table, restricted to the columns the embedded
queries touch (`id`, `chain_id`, `address`). -/
structure ContractRow : Type where
  id : Int
  chain_id : Int
  address : Bytes
deriving DecidableEq, Repr

/-- One row of the `contract_storage` table, restricted to the columns the
embedded queries touch. -/
structure StorageRow : Type where
  contract_id : Int
  slot : Bytes
  value : Option Bytes
  previous_value : Option Bytes
  valid_from : Int
  ordinal : Int
deriving DecidableEq, Repr

/-- One row of the `block` table as seen by `orm::Block::by_hash` /
`by_number`: the join against the `chain` table is collapsed into a `chain`
field. -/
structure BlockRow : Type where
  chain : Chain
  hash : Bytes
  number : Int
  ts : Int
deriving DecidableEq, Repr

/-- One consistent snapshot of the relational store. -/
structure Store : Type where
  blocks : List BlockRow
  contracts : List ContractRow
  contract_storage : List StorageRow
deriving DecidableEq, Repr

/-- `storage::BlockIdentifier`. -/
inductive BlockIdentifier : Type where
  | hash (h : Bytes)
  | number (chain : Chain) (no : Int)
deriving DecidableEq, Repr

/-- `storage::BlockOrTimestamp`. -/
inductive BlockOrTimestamp : Type where
  | block (id : BlockIdentifier)
  | timestamp (ts : Int)
deriving DecidableEq, Repr

/-- `orm::Block::by_hash`: first stored block with the given hash. -/
def blockByHash (store : Store) (h : Bytes) : Option BlockRow :=
  store.blocks.find? (fun b => b.hash == h)

/-- `orm::Block::by_number`: first stored block of the chain with the given
number. -/
def blockByNumber (store : Store) (chain : Chain) (no : Int) : Option BlockRow :=
  store.blocks.find? (fun b => b.chain == chain && b.number == no)

/-- `version_to_ts` from `src/storage/postgres/contract.rs`. `Utc::now()` is
made explicit as the `now` argument, so resolution is a pure function of the
store and the call instant. A missing block maps to `NotFound` (via
`StorageError::from_diesel`). -/
def version_to_ts (store : Store) (now : Int) (v : Option BlockOrTimestamp) :
    Except StorageError Int :=
  match v with
  | some (.block (.hash h)) =>
    match blockByHash store h with
    | some b => .ok b.ts
    | none => .error (.notFound "Block" (hexEncode h))
  | some (.block (.number chain no)) =>
    match blockByNumber store chain no with
    | some b => .ok b.ts
    | none => .error (.notFound "Block" (toString no))
  | some (.timestamp ts) => .ok ts
  | none => .ok now

/-- The inner join of `contract_storage` with `contract` (and `chain`),
filtered to `chain::id == chain_id`: keeps the storage rows whose contract
belongs to the requested chain. -/
def chainJoined (store : Store) (chain_id : Int) : List StorageRow :=
  store.contract_storage.filter (fun r =>
    store.contracts.any (fun c => c.id == r.contract_id && c.chain_id == chain_id))

/-- The half-open `valid_from` range filter `lo < valid_from <= hi` applied on
top of the chain join (`.filter(valid_from.gt(lo)).filter(valid_from.le(hi))`). -/
def inRange (store : Store) (chain_id lo hi : Int) : List StorageRow :=
  (chainJoined store chain_id).filter (fun r => lo < r.valid_from && r.valid_from ≤ hi)

/-- The ORDER BY sort key: `(contract::id, slot, valid_from, ordinal)` with the
two temporal components compared descending in the forward branch
(`desc = true`) and ascending in the backward branch (`desc = false`);
descending comparison of an `Int` is ascending comparison of its negation.
`slot` is a `bytea`, compared lexicographically byte by byte. -/
def sortKey (desc : Bool) (r : StorageRow) : Lex (Int × Lex (List Nat × Lex (Int × Int))) :=
  toLex (r.contract_id, toLex (r.slot,
    toLex (if desc then (-r.valid_from, -r.ordinal) else (r.valid_from, r.ordinal))))

/-- The boolean total preorder handed to the stable sort embedding ORDER BY. -/
def rowLE (desc : Bool) (a b : StorageRow) : Bool := decide (sortKey desc a ≤ sortKey desc b)

/-- Two storage rows agree on the DISTINCT ON key `(contract::id, slot)`. -/
def sameKey (a b : StorageRow) : Bool := a.contract_id == b.contract_id && a.slot == b.slot

/-- `DISTINCT ON (contract::id, slot)`: keep the first row of every
`(contract_id, slot)` group of the ordered row list. -/
def dedupOn : List StorageRow → List StorageRow
  | [] => []
  | r :: rs => r :: (dedupOn rs).filter (fun x => !sameKey x r)

/-- Stable insertion into a sorted list (the sorting step of the embedded
ORDER BY). -/
def insertSorted {α : Type} (le : α → α → Bool) (a : α) : List α → List α
  | [] => [a]
  | b :: l => if le a b then a :: b :: l else b :: insertSorted le a l

/-- Insertion sort by a boolean total preorder: the embedding of the SQL
ORDER BY (any ordering consistent with the sort key is a faithful model,
since SQL leaves the order of tied rows unspecified). -/
def sortBy {α : Type} (le : α → α → Bool) : List α → List α
  | [] => []
  | a :: l => insertSorted le a (sortBy le l)

/-- The forward branch of `get_slots_delta` (`start <= target`): rows with
`valid_from` in `(start, target]`, ordered by contract, slot and descending
change time, deduplicated per `(contract, slot)`, projected to
`(contract::id, slot, value)`. -/
def forwardQuery (store : Store) (chain_id ts_s ts_t : Int) :
    List (Int × Bytes × Option Bytes) :=
  (dedupOn (sortBy (rowLE true) (inRange store chain_id ts_s ts_t))).map
    (fun r => (r.contract_id, r.slot, r.value))

/-- The backward branch of `get_slots_delta` (`start > target`): rows with
`valid_from` in `(target, start]`, ordered by contract, slot and ascending
change time, deduplicated per `(contract, slot)`, projected to
`(contract::id, slot, previous_value)`. -/
def backwardQuery (store : Store) (chain_id ts_s ts_t : Int) :
    List (Int × Bytes × Option Bytes) :=
  (dedupOn (sortBy (rowLE false) (inRange store chain_id ts_t ts_s))).map
    (fun r => (r.contract_id, r.slot, r.previous_value))

/-- The batch address lookup: contracts whose id appears among the changed
rows, projected to `(id, address)`. The store argument is the snapshot this
second query observes, which the source does not force to coincide with the
snapshot of the range query (no wrapping transaction). -/
def addrQueryRows (store : Store) (changed : List (Int × Bytes × Option Bytes)) :
    List (Int × Bytes) :=
  (store.contracts.filter (fun c => changed.any (fun t => t.1 == c.id))).map
    (fun c => (c.id, c.address))

/-- Association-list insert with `HashMap` overwrite semantics. -/
def insertA {κ ν : Type} [DecidableEq κ] (k : κ) (v : ν) :
    List (κ × ν) → List (κ × ν)
  | [] => [(k, v)]
  | p :: rest => if p.1 = k then (k, v) :: rest else p :: insertA k v rest

/-- Association-list lookup (`HashMap::get`). -/
def lookupA {κ ν : Type} [DecidableEq κ] (k : κ) : List (κ × ν) → Option ν
  | [] => none
  | p :: rest => if p.1 = k then some p.2 else lookupA k rest

/-- The `collect::<Result<HashMap<i64, H160>, _>>()` over the address rows:
abort with a `DecodeError` on the first address that is not exactly 20 bytes,
otherwise accumulate the id-to-address map (`H160::from_slice` keeps the
20 raw bytes). -/
def decodeAddressesGo : List (Int × Bytes) → List (Int × Bytes) →
    Except StorageError (List (Int × Bytes))
  | [], m => .ok m
  | kv :: rest, m =>
    if kv.2.length = 20 then decodeAddressesGo rest (insertA kv.1 kv.2 m)
    else .error (.decodeError
      ("Invalid contract address found for contract with id: " ++ toString kv.1 ++
        ", address: " ++ hexEncode kv.2))

/-- See `decodeAddressesGo`. -/
def decodeAddresses (rows : List (Int × Bytes)) :
    Except StorageError (List (Int × Bytes)) :=
  decodeAddressesGo rows []

/-- Decoding of a nullable 32-byte column after its length check: `NULL`
decodes to `U256::zero()`. -/
def decodeVal : Option Bytes → Nat
  | some v => fromBigEndian v
  | none => 0

/-- The `result.entry(*contract_address)` step: insert `(k, v)` into the slot
map of `addr`, creating the inner map when absent. -/
def insert2 (addr : Bytes) (k v : Nat) :
    List (Bytes × List (Nat × Nat)) → List (Bytes × List (Nat × Nat))
  | [] => [(addr, [(k, v)])]
  | p :: rest =>
    if p.1 = addr then (p.1, insertA k v p.2) :: rest else p :: insert2 addr k v rest

/-- Lookup of one slot value in the nested result map. -/
def lookup2 (m : List (Bytes × List (Nat × Nat))) (addr : Bytes) (k : Nat) : Option Nat :=
  match lookupA addr m with
  | some inner => lookupA k inner
  | none => none

/-- The final loop of `get_slots_delta`: for every changed `(contract_id,
raw_key, raw_val)` resolve the contract address (missing id is a
`DecodeError`), validate that the slot key and any present slot value are
exactly 32 bytes (anything else is a `DecodeError`), decode both big-endian
(`NULL` value decodes to zero) and accumulate the nested per-address map. -/
def buildResultGo (contract_addresses : List (Int × Bytes)) :
    List (Int × Bytes × Option Bytes) → List (Bytes × List (Nat × Nat)) →
    Except StorageError (List (Bytes × List (Nat × Nat)))
  | [], result => .ok result
  | t :: rest, result =>
    match lookupA t.1 contract_addresses with
    | none => .error (.decodeError ("Failed to find contract address for id " ++ toString t.1))
    | some contract_address =>
      if t.2.1.length ≠ 32 then
        .error (.decodeError
          ("Invalid byte length for U256 in slot key! Found: 0x" ++ hexEncode t.2.1))
      else
        match t.2.2 with
        | some val =>
          if val.length ≠ 32 then
            .error (.decodeError
              ("Invalid byte length for U256 in slot value! Found: 0x" ++ hexEncode val))
          else
            buildResultGo contract_addresses rest
              (insert2 contract_address (fromBigEndian t.2.1) (fromBigEndian val) result)
        | none =>
          buildResultGo contract_addresses rest
            (insert2 contract_address (fromBigEndian t.2.1) 0 result)

/-- See `buildResultGo`. -/
def buildResult (changed : List (Int × Bytes × Option Bytes))
    (contract_addresses : List (Int × Bytes)) :
    Except StorageError (List (Bytes × List (Nat × Nat))) :=
  buildResultGo contract_addresses changed []

/-- Result type of one `get_slots_delta` call: a Rust panic (from `.unwrap()`)
is neither a returned value nor a returned error. -/
inductive Outcome (α : Type) : Type where
  | ok (a : α)
  | err (e : StorageError)
  | crash (msg : String)
deriving DecidableEq, Repr

/-- Which of the two fallible store round trips of `get_slots_delta` suffer an
underlying I/O failure in this call (`none` = the query executes normally). -/
structure Faults : Type where
  rangeError : Option String
  addrError : Option String
deriving DecidableEq, Repr

/-- A call on which the external store works normally. -/
def noFaults : Faults := ⟨none, none⟩

/-- `get_slots_delta` from `src/storage/postgres/contract.rs`.

`store` is the snapshot the range query (and version resolution) observes and
`addrStore` the snapshot the later address query observes; a caller that wraps
the call in a transaction passes the same snapshot twice. `getChainId` embeds
`self.get_chain_id`. The directional range query result is `.unwrap()`ed in
the source, so an I/O failure there crashes the call; an I/O failure of the
address query is converted by `StorageError::from` and propagated with `?`. -/
def get_slots_delta (store addrStore : Store) (faults : Faults)
    (getChainId : Chain → Int) (chain : Chain)
    (start_version target_version : Option BlockOrTimestamp) (now : Int) :
    Outcome (List (Bytes × List (Nat × Nat))) :=
  let chain_id := getChainId chain
  match version_to_ts store now start_version with
  | .error e => .err e
  | .ok start_version_ts =>
  match version_to_ts store now target_version with
  | .error e => .err e
  | .ok target_version_ts =>
  match faults.rangeError with
  | some msg => .crash msg
  | none =>
  let changed_values :=
    if start_version_ts ≤ target_version_ts then
      forwardQuery store chain_id start_version_ts target_version_ts
    else
      backwardQuery store chain_id start_version_ts target_version_ts
  match faults.addrError with
  | some msg => .err (StorageError.fromStoreError msg)
  | none =>
  match decodeAddresses (addrQueryRows addrStore changed_values) with
  | .error e => .err e
  | .ok contract_addresses =>
  match buildResult changed_values contract_addresses with
  | .error e => .err e
  | .ok result => .ok result

/-! ## Mapping-contract entities (`tycho-indexer/src/extractor/evm/storage.rs`) -/

/-- Modelled from the spec: the fixed-width `H256::try_decode` helper of
`evm::utils` (not among the given sources) — "fixed-width decode helpers
enforce exact byte length (20 for addresses, 32 for hashes/slots/integers) and
must reject — never truncate or pad — malformed input". -/
def tryDecodeH256 (b : Bytes) (name : String) : Except String Bytes :=
  if b.length = 32 then .ok b else .error ("Failed to decode " ++ name)

/-- Modelled from the spec: the fixed-width `H160::try_decode` helper of
`evm::utils` (not among the given sources); exact 20-byte length enforced. -/
def tryDecodeH160 (b : Bytes) (name : String) : Except String Bytes :=
  if b.length = 20 then .ok b else .error ("Failed to decode " ++ name)

/-- Modelled from the spec: the fixed-width `U256::try_decode` helper of
`evm::utils` (not among the given sources); exact 32-byte length enforced,
then big-endian decoding. -/
def tryDecodeU256 (b : Bytes) (name : String) : Except String Nat :=
  if b.length = 32 then .ok (fromBigEndian b) else .error ("Failed to decode " ++ name)

/-- Modelled from the spec: `evm::utils::pad_and_parse_h160` (not among the
given sources) — the one helper for which "the domain explicitly allows
left-padding of a shorter hex string" to the 20-byte address width. -/
def pad_and_parse_h160 (b : Bytes) : Except String Bytes :=
  if b.length ≤ 20 then .ok (List.replicate (20 - b.length) 0 ++ b)
  else .error "too long for H160"

/-- Modelled from the spec: `evm::utils::convert_addresses_to_h160` (not among
the given sources): decode every stored address, failing on the first
malformed one. -/
def convert_addresses_to_h160 : List Bytes → Except StorageError (List Bytes)
  | [] => .ok []
  | b :: t =>
    match pad_and_parse_h160 b with
    | .error e => .error (.decodeError e)
    | .ok x =>
      match convert_addresses_to_h160 t with
      | .error e => .error e
      | .ok xs => .ok (x :: xs)

/-- Modelled from the spec: `evm::utils::parse_u256_slot_entry` (not among the
given sources): decode a raw `(slot, value)` pair to `U256`s, a missing value
decoding to zero. -/
def parse_u256_slot_entry (rk : Bytes) (rv : Option Bytes) : Except String (Nat × Nat) :=
  match tryDecodeU256 rk "slot key" with
  | .error e => .error e
  | .ok k =>
    match rv with
    | some v =>
      match tryDecodeU256 v "slot value" with
      | .error e => .error e
      | .ok vd => .ok (k, vd)
    | none => .ok (k, 0)

/-- `serde_json::Value`, modelled only as far as the sources exercise it:
the serialisation of a `String → Bytes` map, plus an opaque payload for
anything else (attribute schemas pass through unchanged). -/
inductive Json : Type where
  | obj (fields : List (String × Bytes))
  | val (s : String)
deriving DecidableEq, Repr

/-- `serde_json::to_value` on a `HashMap<String, Bytes>`. -/
def jsonOfAttributes (m : List (String × Bytes)) : Json := .obj m

/-- `serde_json::from_value::<HashMap<String, Bytes>>`. -/
def attributesOfJson : Json → Option (List (String × Bytes))
  | .obj m => some m
  | .val _ => none

/-- `storage::ContractId`: `(chain, address)`. -/
structure ContractId : Type where
  chain : Chain
  address : Bytes
deriving DecidableEq, Repr

/-- An `f64` carried opaquely by its bit pattern: the sources only ever copy
`balance_float`, never compute with it. -/
structure F64 : Type where
  bits : Nat
deriving DecidableEq, Repr

namespace orm

/-- `orm::Block`, restricted to the fields `from_storage` reads. -/
structure Block : Type where
  chain_id : Int
  hash : Bytes
  parent_hash : Bytes
  number : Int
  ts : Int
deriving DecidableEq, Repr

/-- `orm::NewBlock` as built by `StorableBlock::to_storage`. -/
structure NewBlock : Type where
  hash : Bytes
  parent_hash : Bytes
  chain_id : Int
  main : Bool
  number : Int
  ts : Int
deriving DecidableEq, Repr

/-- Reinterpret a freshly inserted block row as a fetched row: the store keeps
every column unchanged. -/
def Block.ofNew (n : NewBlock) : Block :=
  { chain_id := n.chain_id, hash := n.hash, parent_hash := n.parent_hash,
    number := n.number, ts := n.ts }

/-- `orm::Transaction`, restricted to the fields `from_storage` reads. -/
structure Transaction : Type where
  hash : Bytes
  block_id : Int
  from_ : Bytes
  to_ : Bytes
  index : Int
deriving DecidableEq, Repr

/-- `orm::NewTransaction` as built by `StorableTransaction::to_storage`. -/
structure NewTransaction : Type where
  hash : Bytes
  block_id : Int
  from_ : Bytes
  to_ : Bytes
  index : Int
deriving DecidableEq, Repr

/-- Round trip through the store for transaction rows. -/
def Transaction.ofNew (n : NewTransaction) : Transaction :=
  { hash := n.hash, block_id := n.block_id, from_ := n.from_, to_ := n.to_, index := n.index }

/-- `orm::FinancialType`. -/
inductive FinancialType : Type where
  | swap | psm | debt | leverage
deriving DecidableEq, Repr

/-- `orm::ImplementationType`. -/
inductive ImplementationType : Type where
  | custom | vm
deriving DecidableEq, Repr

/-- `orm::ProtocolType`, restricted to the fields `from_storage` reads. -/
structure ProtocolType : Type where
  name : String
  financial_type : FinancialType
  attribute_schema : Option Json
  implementation : ImplementationType
deriving DecidableEq, Repr

/-- `orm::NewProtocolType` as built by `StorableProtocolType::to_storage`. -/
structure NewProtocolType : Type where
  name : String
  implementation : ImplementationType
  attribute_schema : Option Json
  financial_type : FinancialType
deriving DecidableEq, Repr

/-- Round trip through the store for protocol-type rows. -/
def ProtocolType.ofNew (n : NewProtocolType) : ProtocolType :=
  { name := n.name, financial_type := n.financial_type,
    attribute_schema := n.attribute_schema, implementation := n.implementation }

/-- The `account` part of `orm::Contract`. -/
structure Account : Type where
  address : Bytes
  title : String
deriving DecidableEq, Repr

/-- The `balance` part of `orm::Contract`. -/
structure AccountBalance : Type where
  balance : Bytes
deriving DecidableEq, Repr

/-- The `code` part of `orm::Contract`. -/
structure ContractCode : Type where
  code : Bytes
  hash : Bytes
deriving DecidableEq, Repr

/-- `orm::Contract` as consumed by `StorableContract::from_storage`. -/
structure Contract : Type where
  account : Account
  balance : AccountBalance
  code : ContractCode
deriving DecidableEq, Repr

/-- `orm::NewContract` as built by `StorableContract::to_storage`. -/
structure NewContract : Type where
  title : String
  address : Bytes
  chain_id : Int
  creation_tx : Option Int
  created_at : Option Int
  deleted_at : Option Int
  balance : Bytes
  code : Bytes
  code_hash : Bytes
deriving DecidableEq, Repr

/-- Round trip through the store for contract rows: the flat inserted row is
read back as the composite `orm::Contract`. -/
def Contract.ofNew (n : NewContract) : Contract :=
  { account := { address := n.address, title := n.title },
    balance := { balance := n.balance },
    code := { code := n.code, hash := n.code_hash } }

/-- `orm::TokenQuality`. -/
inductive TokenQuality : Type where
  | normal | rebase | tax | scam
deriving DecidableEq, Repr

/-- `orm::Token`, restricted to the fields `from_storage` reads. -/
structure Token : Type where
  account_id : Int
  symbol : String
  decimals : Int
  tax : Int
  gas : List (Option Int)
  quality : TokenQuality
deriving DecidableEq, Repr

/-- `orm::NewToken` as built by `StorableToken::to_storage`. -/
structure NewToken : Type where
  account_id : Int
  symbol : String
  decimals : Int
  tax : Int
  gas : List (Option Int)
  quality : TokenQuality
deriving DecidableEq, Repr

/-- Round trip through the store for token rows. -/
def Token.ofNew (n : NewToken) : Token :=
  { account_id := n.account_id, symbol := n.symbol, decimals := n.decimals,
    tax := n.tax, gas := n.gas, quality := n.quality }

/-- `orm::ProtocolComponent`, restricted to the fields `from_storage` reads. -/
structure ProtocolComponent : Type where
  external_id : String
  chain_id : Int
  protocol_type_id : Int
  protocol_system_id : Int
  attributes : Option Json
  creation_tx : Int
  created_at : Int
deriving DecidableEq, Repr

/-- `orm::NewProtocolComponent` as built by
`StorableProtocolComponent::to_storage`. -/
structure NewProtocolComponent : Type where
  external_id : String
  chain_id : Int
  protocol_type_id : Int
  protocol_system_id : Int
  creation_tx : Int
  created_at : Int
  attributes : Option Json
deriving DecidableEq, Repr

/-- Round trip through the store for protocol-component rows. -/
def ProtocolComponent.ofNew (n : NewProtocolComponent) : ProtocolComponent :=
  { external_id := n.external_id, chain_id := n.chain_id,
    protocol_type_id := n.protocol_type_id, protocol_system_id := n.protocol_system_id,
    attributes := n.attributes, creation_tx := n.creation_tx, created_at := n.created_at }

/-- `orm::ProtocolState`, restricted to the fields `from_storage` reads. -/
structure ProtocolState : Type where
  protocol_component_id : Int
  attribute_name : String
  attribute_value : Bytes
deriving DecidableEq, Repr

/-- `orm::NewProtocolState` as built by the protocol-state `to_storage`
implementations. -/
structure NewProtocolState : Type where
  protocol_component_id : Int
  attribute_name : Option String
  attribute_value : Option Bytes
  previous_value : Option Bytes
  modify_tx : Int
  valid_from : Int
  valid_to : Option Int
deriving DecidableEq, Repr

/-- Round trip through the store for protocol-state rows (the nullable insert
columns are non-null for every row the sources build). -/
def ProtocolState.ofNew (n : NewProtocolState) : ProtocolState :=
  { protocol_component_id := n.protocol_component_id,
    attribute_name := n.attribute_name.getD "",
    attribute_value := n.attribute_value.getD [] }

/-- `orm::NewComponentBalance` as built by
`StorableComponentBalance::to_storage`. -/
structure NewComponentBalance : Type where
  token_id : Int
  new_balance : Bytes
  previous_value : Bytes
  balance_float : F64
  modify_tx : Int
  protocol_component_id : Int
  valid_from : Int
  valid_to : Option Int
deriving DecidableEq, Repr

end orm

/-- Modelled from the spec: `Balance::from(U256)` of `tycho_types` (not among
the given sources) — the external "fixed-width codecs for 160-bit addresses
and 256-bit integers (big-endian)". -/
def balanceFromU256 (n : Nat) : Bytes := toBEbytes 32 n

namespace models

/-- `models::FinancialType`. -/
inductive FinancialType : Type where
  | swap | psm | debt | leverage
deriving DecidableEq, Repr

/-- `models::ImplementationType`. -/
inductive ImplementationType : Type where
  | custom | vm
deriving DecidableEq, Repr

/-- `models::ProtocolType` (domain side). -/
structure ProtocolType : Type where
  name : String
  financial_type : FinancialType
  attribute_schema : Option Json
  implementation : ImplementationType
deriving DecidableEq, Repr

/-- `StorableProtocolType::from_storage`. -/
def ProtocolType.from_storage (val : orm.ProtocolType) : Except StorageError ProtocolType :=
  .ok { name := val.name,
        financial_type :=
          match val.financial_type with
          | .swap => .swap | .psm => .psm | .debt => .debt | .leverage => .leverage,
        attribute_schema := val.attribute_schema,
        implementation :=
          match val.implementation with
          | .custom => .custom | .vm => .vm }

/-- `StorableProtocolType::to_storage`. -/
def ProtocolType.to_storage (x : ProtocolType) : orm.NewProtocolType :=
  { name := x.name,
    implementation :=
      match x.implementation with
      | .custom => .custom | .vm => .vm,
    attribute_schema := x.attribute_schema,
    financial_type :=
      match x.financial_type with
      | .swap => .swap | .psm => .psm | .debt => .debt | .leverage => .leverage }

end models

namespace evm

/-- `storage::ChangeType`. -/
inductive ChangeType : Type where
  | update | creation | deletion
deriving DecidableEq, Repr

/-- Modelled from the spec: `ChangeType::default()` (the derive lives outside
the given sources); the spec treats `Update` as the neutral observed-diff
kind, so the default is `update`. Every theorem below is insensitive to which
variant this is. -/
def ChangeType.defaultValue : ChangeType := .update

/-- `evm::TokenQuality`. -/
inductive TokenQuality : Type where
  | normal | rebase | tax | scam
deriving DecidableEq, Repr

/-- `evm::Block`. -/
structure Block : Type where
  number : Nat
  hash : Bytes
  parent_hash : Bytes
  chain : Chain
  ts : Int
deriving DecidableEq, Repr

/-- `StorableBlock::from_storage` for `evm::Block`. -/
def Block.from_storage (val : orm.Block) (chain : Chain) : Except StorageError Block :=
  match tryDecodeH256 val.hash "block hash" with
  | .error e => .error (.decodeError e)
  | .ok hash =>
  match tryDecodeH256 val.parent_hash "parent hash" with
  | .error e => .error (.decodeError e)
  | .ok parent_hash =>
    .ok { number := iAsU 64 val.number, hash := hash, parent_hash := parent_hash,
          chain := chain, ts := val.ts }

/-- `StorableBlock::to_storage` for `evm::Block`. -/
def Block.to_storage (x : Block) (chain_id : Int) : orm.NewBlock :=
  { hash := x.hash, parent_hash := x.parent_hash, chain_id := chain_id,
    main := false, number := uAsI 64 x.number, ts := x.ts }

/-- `evm::Transaction`. -/
structure Transaction : Type where
  hash : Bytes
  block_hash : Bytes
  from_ : Bytes
  to_ : Option Bytes
  index : Nat
deriving DecidableEq, Repr

/-- `StorableTransaction::from_storage` for `evm::Transaction`. -/
def Transaction.from_storage (val : orm.Transaction) (block_hash : Bytes) :
    Except StorageError Transaction :=
  match (if val.to_.isEmpty then Except.ok none
         else (tryDecodeH160 val.to_ "tx receiver").map some) with
  | .error e => .error (.decodeError e)
  | .ok to_ =>
  match tryDecodeH256 val.hash "tx hash" with
  | .error e => .error (.decodeError e)
  | .ok hash =>
  match tryDecodeH256 block_hash "tx block hash" with
  | .error e => .error (.decodeError e)
  | .ok bh =>
  match tryDecodeH160 val.from_ "tx sender" with
  | .error e => .error (.decodeError e)
  | .ok from_ =>
    .ok { hash := hash, block_hash := bh, from_ := from_, to_ := to_,
          index := iAsU 64 val.index }

/-- `StorableTransaction::to_storage` for `evm::Transaction`
(`self.to.map(Into::into).unwrap_or_default()` — the default `Address` is the
empty byte string). -/
def Transaction.to_storage (x : Transaction) (block_id : Int) : orm.NewTransaction :=
  { hash := x.hash, block_id := block_id, from_ := x.from_,
    to_ := x.to_.getD [], index := uAsI 64 x.index }

/-- `evm::Account`. -/
structure Account : Type where
  chain : Chain
  address : Bytes
  title : String
  slots : List (Nat × Nat)
  balance : Nat
  code : Bytes
  code_hash : Bytes
  balance_modify_tx : Bytes
  code_modify_tx : Bytes
  creation_tx : Option Bytes
deriving DecidableEq, Repr

/-- `StorableContract::from_storage` for `evm::Account`. Note the source
constructs the account with `HashMap::new()` for the slots. -/
def Account.from_storage (val : orm.Contract) (chain : Chain)
    (balance_modify_tx code_modify_tx : Bytes) (creation_tx : Option Bytes) :
    Except StorageError Account :=
  match tryDecodeH160 val.account.address "address" with
  | .error e => .error (.decodeError e)
  | .ok address =>
  match tryDecodeU256 val.balance.balance "balance" with
  | .error e => .error (.decodeError e)
  | .ok balance =>
  match tryDecodeH256 val.code.hash "code hash" with
  | .error e => .error (.decodeError e)
  | .ok code_hash =>
  match tryDecodeH256 balance_modify_tx "tx hash" with
  | .error e => .error (.decodeError e)
  | .ok btx =>
  match tryDecodeH256 code_modify_tx "tx hash" with
  | .error e => .error (.decodeError e)
  | .ok ctx_ =>
  match (match creation_tx with
         | some v => (tryDecodeH256 v "tx hash").map some
         | none => Except.ok none) with
  | .error e => .error (.decodeError e)
  | .ok crtx =>
    .ok { chain := chain, address := address, title := val.account.title,
          slots := [], balance := balance, code := val.code.code,
          code_hash := code_hash, balance_modify_tx := btx,
          code_modify_tx := ctx_, creation_tx := crtx }

/-- `StorableContract::to_storage` for `evm::Account` (slots are not part of
the contract row). -/
def Account.to_storage (x : Account) (chain_id : Int) (creation_ts : Int)
    (tx_id : Option Int) : orm.NewContract :=
  { title := x.title, address := x.address, chain_id := chain_id,
    creation_tx := tx_id, created_at := some creation_ts, deleted_at := none,
    balance := balanceFromU256 x.balance, code := x.code, code_hash := x.code_hash }

/-- `evm::ERC20Token`. -/
structure ERC20Token : Type where
  address : Bytes
  symbol : String
  decimals : Nat
  tax : Nat
  gas : List (Option Nat)
  chain : Chain
  quality : TokenQuality
deriving DecidableEq, Repr

/-- `StorableToken::from_storage` for `evm::ERC20Token`. -/
def ERC20Token.from_storage (val : orm.Token) (contract : ContractId) :
    Except StorageError ERC20Token :=
  match pad_and_parse_h160 contract.address with
  | .error e => .error (.decodeError e)
  | .ok address =>
    .ok { address := address, symbol := val.symbol, decimals := iAsU 32 val.decimals,
          tax := iAsU 64 val.tax,
          gas := val.gas.map (fun item => item.map (iAsU 64)),
          chain := contract.chain,
          quality :=
            match val.quality with
            | .normal => .normal | .rebase => .rebase | .tax => .tax | .scam => .scam }

/-- `StorableToken::to_storage` for `evm::ERC20Token`. -/
def ERC20Token.to_storage (x : ERC20Token) (contract_id : Int) : orm.NewToken :=
  { account_id := contract_id, symbol := x.symbol, decimals := uAsI 32 x.decimals,
    tax := uAsI 64 x.tax,
    gas := x.gas.map (fun item => item.map (uAsI 64)),
    quality :=
      match x.quality with
      | .normal => .normal | .rebase => .rebase | .tax => .tax | .scam => .scam }

/-- `evm::ProtocolComponent`. -/
structure ProtocolComponent : Type where
  id : String
  protocol_system : String
  protocol_type_name : String
  chain : Chain
  tokens : List Bytes
  contract_ids : List Bytes
  static_attributes : List (String × Bytes)
  change : ChangeType
  creation_tx : Bytes
  created_at : Int
deriving DecidableEq, Repr

/-- `StorableProtocolComponent::from_storage` for `evm::ProtocolComponent`.
`protocol_type_name` is rebuilt as the decimal rendering of the stored
`protocol_type_id`, and `change` as the default change type. -/
def ProtocolComponent.from_storage (val : orm.ProtocolComponent)
    (tokens contract_ids : List Bytes) (chain : Chain) (protocol_system : String)
    (transaction_hash : Bytes) : Except StorageError ProtocolComponent :=
  match (match val.attributes with
         | some v =>
           match attributesOfJson v with
           | some m => Except.ok m
           | none => Except.error (StorageError.decodeError
               "Failed to decode static attributes.")
         | none => Except.ok []) with
  | .error e => .error e
  | .ok static_attributes =>
  match convert_addresses_to_h160 tokens with
  | .error e => .error e
  | .ok token_addresses =>
  match convert_addresses_to_h160 contract_ids with
  | .error e => .error e
  | .ok contract_addresses =>
    .ok { id := val.external_id, protocol_system := protocol_system,
          protocol_type_name := toString val.protocol_type_id, chain := chain,
          tokens := token_addresses, contract_ids := contract_addresses,
          static_attributes := static_attributes,
          change := ChangeType.defaultValue,
          creation_tx := transaction_hash, created_at := val.created_at }

/-- `StorableProtocolComponent::to_storage` for `evm::ProtocolComponent`. -/
def ProtocolComponent.to_storage (x : ProtocolComponent) (chain_id : Int)
    (protocol_system_id protocol_type_id creation_tx : Int) (created_at : Int) :
    Except StorageError orm.NewProtocolComponent :=
  .ok { external_id := x.id, chain_id := chain_id,
        protocol_type_id := protocol_type_id, protocol_system_id := protocol_system_id,
        creation_tx := creation_tx, created_at := created_at,
        attributes := some (jsonOfAttributes x.static_attributes) }

/-- `evm::ProtocolState`. -/
structure ProtocolState : Type where
  component_id : String
  attributes : List (String × Bytes)
  modify_tx : Bytes
deriving DecidableEq, Repr

/-- `StorableProtocolState::from_storage` for `evm::ProtocolState`: fold the
attribute rows of one component back into a single attribute map. -/
def ProtocolState.from_storage (vals : List orm.ProtocolState) (component_id : String)
    (tx_hash : Bytes) : Except StorageError ProtocolState :=
  let attr := vals.foldl (fun m val => insertA val.attribute_name val.attribute_value m) []
  match tryDecodeH256 tx_hash "tx hash" with
  | .error e => .error (.decodeError e)
  | .ok mtx => .ok { component_id := component_id, attributes := attr, modify_tx := mtx }

/-- `StorableProtocolState::to_storage` for `evm::ProtocolState`: one row per
attribute, pushed in iteration order. -/
def ProtocolState.to_storage (x : ProtocolState) (protocol_component_id tx_id : Int)
    (block_ts : Int) : List orm.NewProtocolState :=
  x.attributes.foldl (fun protocol_states nv =>
    protocol_states ++
      [{ protocol_component_id := protocol_component_id,
         attribute_name := some nv.1, attribute_value := some nv.2,
         previous_value := none, modify_tx := tx_id,
         valid_from := block_ts, valid_to := none }]) []

/-- `evm::ProtocolStateDelta`. -/
structure ProtocolStateDelta : Type where
  component_id : String
  updated_attributes : List (String × Bytes)
  deleted_attributes : List String
deriving DecidableEq, Repr

/-- `StorableProtocolStateDelta::to_storage` for `evm::ProtocolStateDelta`:
one row per updated attribute, pushed in iteration order; the source comment
itself notes "this function ignores deleted_attributes". -/
def ProtocolStateDelta.to_storage (x : ProtocolStateDelta)
    (protocol_component_id tx_id : Int) (block_ts : Int) : List orm.NewProtocolState :=
  x.updated_attributes.foldl (fun protocol_states nv =>
    protocol_states ++
      [{ protocol_component_id := protocol_component_id,
         attribute_name := some nv.1, attribute_value := some nv.2,
         previous_value := none, modify_tx := tx_id,
         valid_from := block_ts, valid_to := none }]) []

/-- `evm::ComponentBalance`. -/
structure ComponentBalance : Type where
  token : Bytes
  balance : Bytes
  balance_float : F64
  modify_tx : Bytes
deriving DecidableEq, Repr

/-- `StorableComponentBalance::to_storage` for `evm::ComponentBalance`:
`previous_value` is hard-coded to `Balance::from(U256::from(0))`. -/
def ComponentBalance.to_storage (x : ComponentBalance)
    (token_id modify_tx protocol_component_id : Int) (block_ts : Int) :
    orm.NewComponentBalance :=
  { token_id := token_id, new_balance := x.balance,
    previous_value := balanceFromU256 0, balance_float := x.balance_float,
    modify_tx := modify_tx, protocol_component_id := protocol_component_id,
    valid_from := block_ts, valid_to := none }

end evm

/-! ## Predicates used by the theorem statements -/

/-- The changed-row triples `(contract::id, slot, selected column)` a
`get_slots_delta` call with resolved timestamps `ts_s`, `ts_t` obtains from
its directional range query. -/
def changedTriples (store : Store) (chain_id ts_s ts_t : Int) :
    List (Int × Bytes × Option Bytes) :=
  if ts_s ≤ ts_t then forwardQuery store chain_id ts_s ts_t
  else backwardQuery store chain_id ts_s ts_t

/-- The temporal order `(valid_from, ordinal)` on change rows (the spec's
total order within one `(contract, slot)` history). -/
def keyLe (a b : StorageRow) : Prop :=
  a.valid_from < b.valid_from ∨ (a.valid_from = b.valid_from ∧ a.ordinal ≤ b.ordinal)

instance (a b : StorageRow) : Decidable (keyLe a b) := by unfold keyLe; infer_instance

/-- The rows of `rows` belonging to the same `(contract_id, slot)` group as
`r`. -/
def groupRows (rows : List StorageRow) (r : StorageRow) : List StorageRow :=
  rows.filter (fun x => sameKey x r)

/-- Database well-formedness for the delta claims: primary-key uniqueness of
contract ids, distinct addresses among the contracts of the queried chain,
and 32-byte well-formed `bytea` slot keys and slot values. -/
structure WfStore (store : Store) (chain_id : Int) : Prop where
  ids_nodup : (store.contracts.map (fun c => c.id)).Nodup
  addrs_nodup : ((store.contracts.filter (fun c => c.chain_id == chain_id)).map
    (fun c => c.address)).Nodup
  addr_len : ∀ c ∈ store.contracts, c.address.length = 20
  slot_len : ∀ r ∈ store.contract_storage, r.slot.length = 32
  slot_bytes : ∀ r ∈ store.contract_storage, ∀ x ∈ r.slot, x < 256
  value_len : ∀ r ∈ store.contract_storage, ∀ v, r.value = some v → v.length = 32
  prev_len : ∀ r ∈ store.contract_storage, ∀ v, r.previous_value = some v → v.length = 32

/-- Well-formedness of an `evm::Block` value (what the Rust types enforce:
32-byte `H256` fields, a `u64` block number). -/
abbrev WfEvmBlock (b : evm.Block) : Prop :=
  b.hash.length = 32 ∧ b.parent_hash.length = 32 ∧ b.number < 2 ^ 64

/-- Well-formedness of an `evm::Transaction` value. -/
abbrev WfEvmTransaction (tx : evm.Transaction) : Prop :=
  tx.hash.length = 32 ∧ tx.block_hash.length = 32 ∧ tx.from_.length = 20 ∧
    (∀ t, tx.to_ = some t → t.length = 20) ∧ tx.index < 2 ^ 64

/-- Well-formedness of an `evm::Account` value. -/
abbrev WfEvmAccount (a : evm.Account) : Prop :=
  a.address.length = 20 ∧ a.balance < 2 ^ 256 ∧ a.code_hash.length = 32 ∧
    a.balance_modify_tx.length = 32 ∧ a.code_modify_tx.length = 32 ∧
    (∀ t, a.creation_tx = some t → t.length = 32)

/-- Well-formedness of an `evm::ERC20Token` value. -/
abbrev WfEvmToken (t : evm.ERC20Token) : Prop :=
  t.address.length = 20 ∧ t.decimals < 2 ^ 32 ∧ t.tax < 2 ^ 64 ∧
    ∀ g ∈ t.gas, ∀ n, g = some n → n < 2 ^ 64

/-- Well-formedness of an `evm::ProtocolState` value: the attribute names of
the underlying `HashMap` are pairwise distinct, the modify transaction hash is
32 bytes. -/
abbrev WfEvmProtocolState (ps : evm.ProtocolState) : Prop :=
  (ps.attributes.map (fun nv => nv.1)).Nodup ∧ ps.modify_tx.length = 32

/-- Well-formedness of an `evm::ProtocolComponent` value: stored token and
contract addresses are 20 bytes. -/
abbrev WfEvmProtocolComponent (pc : evm.ProtocolComponent) : Prop :=
  (∀ t ∈ pc.tokens, t.length = 20) ∧ ∀ c ∈ pc.contract_ids, c.length = 20

/-! ## Concrete fixtures (witness inputs)

The slot fixture mirrors the scenario of the source's own tests
(`setup_slots_delta`): one contract, slots `{0:1, 1:5, 2:1}` written at time 1
and `{0:2, 1:3, 5:25, 6:30}` at time 2. -/

/-- The embedded `get_chain_id` of the test gateway: Ethereum is chain id 1. -/
def getCid1 : Chain → Int := fun _ => 1

/-- A 20-byte fixture address. -/
def tAddr : Bytes := List.replicate 19 0 ++ [7]

/-- One fixture change row for contract 1. -/
def tRow (s v : Nat) (pv : Option Nat) (t o : Int) : StorageRow :=
  { contract_id := 1, slot := toBEbytes 32 s, value := some (toBEbytes 32 v),
    previous_value := pv.map (toBEbytes 32), valid_from := t, ordinal := o }

/-- The main fixture store. -/
def tStore : Store :=
  { blocks := [{ chain := .ethereum, hash := List.replicate 32 9, number := 5, ts := 1 }],
    contracts := [{ id := 1, chain_id := 1, address := tAddr }],
    contract_storage :=
      [tRow 0 1 none 1 1, tRow 1 5 none 1 1, tRow 2 1 none 1 1,
       tRow 0 2 (some 1) 2 2, tRow 1 3 (some 5) 2 2,
       tRow 5 25 none 2 2, tRow 6 30 none 2 2] }

/-- A fixture store holding one malformed (31-byte) slot value. -/
def badValStore : Store :=
  { blocks := [],
    contracts := [{ id := 1, chain_id := 1, address := tAddr }],
    contract_storage :=
      [{ contract_id := 1, slot := toBEbytes 32 0, value := some (List.replicate 31 1),
         previous_value := none, valid_from := 1, ordinal := 1 }] }

/-- A snapshot in which the contract table is empty (seen by the address query
after a race). -/
def emptyContractsStore : Store := { blocks := [], contracts := [], contract_storage := [] }

/-- A snapshot in which contract 1 carries a malformed 19-byte address. -/
def shortAddrStore : Store :=
  { blocks := [], contracts := [{ id := 1, chain_id := 1, address := List.replicate 19 7 }],
    contract_storage := [] }

/-- Fixture account with one populated storage slot. -/
def acct0 : evm.Account :=
  { chain := .ethereum, address := tAddr, title := "c0", slots := [(0, 1)],
    balance := 3, code := [0, 1], code_hash := List.replicate 32 2,
    balance_modify_tx := List.replicate 32 3, code_modify_tx := List.replicate 32 4,
    creation_tx := none }

/-- Fixture block. -/
def blk0 : evm.Block :=
  { number := 5, hash := List.replicate 32 1, parent_hash := List.replicate 32 2,
    chain := .ethereum, ts := 10 }

/-- Fixture transaction. -/
def tx0 : evm.Transaction :=
  { hash := List.replicate 32 5, block_hash := List.replicate 32 1,
    from_ := List.replicate 20 6, to_ := some tAddr, index := 2 }

/-- Fixture token. -/
def tok0 : evm.ERC20Token :=
  { address := tAddr, symbol := "WETH", decimals := 18, tax := 0,
    gas := [some 64, none], chain := .ethereum, quality := .normal }

/-- Fixture protocol type. -/
def pt0 : models.ProtocolType :=
  { name := "ambient", financial_type := .swap, attribute_schema := none,
    implementation := .vm }

/-- Fixture protocol state. -/
def ps0 : evm.ProtocolState :=
  { component_id := "comp", attributes := [("k1", [1]), ("k2", [2])],
    modify_tx := List.replicate 32 8 }

/-- Fixture protocol component whose `protocol_type_name` is not the decimal
rendering of any id. -/
def pc0 : evm.ProtocolComponent :=
  { id := "sample", protocol_system := "ambient", protocol_type_name := "ambient_pool",
    chain := .ethereum, tokens := [tAddr], contract_ids := [],
    static_attributes := [("key1", [3])], change := evm.ChangeType.defaultValue,
    creation_tx := List.replicate 32 6, created_at := 4 }

/-- Fixture protocol component compatible with the amended round trip. -/
def pc1 : evm.ProtocolComponent :=
  { id := "sample", protocol_system := "ambient", protocol_type_name := "42",
    chain := .ethereum, tokens := [tAddr], contract_ids := [],
    static_attributes := [("key1", [3])], change := evm.ChangeType.defaultValue,
    creation_tx := List.replicate 32 6, created_at := 4 }

/-- Fixture protocol state delta with an updated and a (distinct) deleted
attribute. -/
def delta0 : evm.ProtocolStateDelta :=
  { component_id := "comp", updated_attributes := [("a", [1])],
    deleted_attributes := ["d"] }

/-- Fixture component balance. -/
def cb0 : evm.ComponentBalance :=
  { token := tAddr, balance := toBEbytes 32 99, balance_float := { bits := 123 },
    modify_tx := List.replicate 32 5 }

/-! ## Helper lemmas -/

theorem foldl_push_eq_map {α β : Type} (f : α → β) (l : List α) (acc : List β) :
    l.foldl (fun acc a => acc ++ [f a]) acc = acc ++ l.map f := by
  induction l generalizing acc with
  | nil => simp
  | cons a t ih => simp [List.foldl_cons, ih]

theorem Chain.all_eq (x y : Chain) : x = y := by
  cases x
  cases y
  rfl

theorem find?_eq_some_unique {α : Type} (p : α → Bool) (l : List α) (b : α)
    (hb : b ∈ l) (hp : p b = true) (huniq : ∀ x ∈ l, p x = true → x = b) :
    l.find? p = some b := by
  induction l with
  | nil => cases hb
  | cons a t ih =>
    by_cases ha : p a = true
    · have hab : a = b := huniq a (by simp) ha
      subst hab
      simp [List.find?_cons, ha]
    · have ha' : p a = false := by simpa using ha
      have hbt : b ∈ t := by
        cases hb with
        | head => rw [hp] at ha'; cases ha'
        | tail _ h => exact h
      simp only [List.find?_cons, ha']
      exact ih hbt (fun x hx hpx => huniq x (List.mem_cons_of_mem _ hx) hpx)

theorem sameKey_iff (a b : StorageRow) :
    sameKey a b = true ↔ a.contract_id = b.contract_id ∧ a.slot = b.slot := by
  simp [sameKey]

theorem sameKey_refl (a : StorageRow) : sameKey a a = true := by
  simp [sameKey]

theorem sameKey_symm {a b : StorageRow} (h : sameKey a b = true) : sameKey b a = true := by
  rw [sameKey_iff] at h ⊢
  exact ⟨h.1.symm, h.2.symm⟩

theorem sameKey_trans {a b c : StorageRow} (h1 : sameKey a b = true)
    (h2 : sameKey b c = true) : sameKey a c = true := by
  rw [sameKey_iff] at h1 h2 ⊢
  exact ⟨h1.1.trans h2.1, h1.2.trans h2.2⟩

theorem rowLE_refl (desc : Bool) (a : StorageRow) : rowLE desc a a = true := by
  simp [rowLE]

theorem rowLE_trans (desc : Bool) :
    ∀ a b c : StorageRow, rowLE desc a b = true → rowLE desc b c = true →
      rowLE desc a c = true := by
  intro a b c
  simp only [rowLE, decide_eq_true_eq]
  exact le_trans

theorem rowLE_total (desc : Bool) :
    ∀ a b : StorageRow, (rowLE desc a b || rowLE desc b a) = true := by
  intro a b
  simp only [rowLE, Bool.or_eq_true, decide_eq_true_eq]
  exact le_total _ _

theorem keyLe_of_rowLE_true (a b : StorageRow) (hk : sameKey a b = true)
    (hle : rowLE true a b = true) : keyLe b a := by
  obtain ⟨h1, h2⟩ := (sameKey_iff a b).mp hk
  simp only [rowLE, decide_eq_true_eq] at hle
  have hsa : sortKey true a =
      toLex (a.contract_id, toLex (a.slot, toLex (-a.valid_from, -a.ordinal))) := rfl
  have hsb : sortKey true b =
      toLex (b.contract_id, toLex (b.slot, toLex (-b.valid_from, -b.ordinal))) := rfl
  rw [hsa, hsb] at hle
  rw [Prod.Lex.le_iff] at hle
  rcases hle with h | ⟨-, hle⟩
  · rw [h1] at h
    exact absurd h (lt_irrefl _)
  · rw [Prod.Lex.le_iff] at hle
    rcases hle with h | ⟨-, hle⟩
    · rw [h2] at h
      exact absurd h (lt_irrefl _)
    · rw [Prod.Lex.le_iff] at hle
      unfold keyLe
      rcases hle with h | ⟨h3, h4⟩
      · left
        omega
      · omega

theorem keyLe_of_rowLE_false (a b : StorageRow) (hk : sameKey a b = true)
    (hle : rowLE false a b = true) : keyLe a b := by
  obtain ⟨h1, h2⟩ := (sameKey_iff a b).mp hk
  simp only [rowLE, decide_eq_true_eq] at hle
  have hsa : sortKey false a =
      toLex (a.contract_id, toLex (a.slot, toLex (a.valid_from, a.ordinal))) := rfl
  have hsb : sortKey false b =
      toLex (b.contract_id, toLex (b.slot, toLex (b.valid_from, b.ordinal))) := rfl
  rw [hsa, hsb] at hle
  rw [Prod.Lex.le_iff] at hle
  rcases hle with h | ⟨-, hle⟩
  · rw [h1] at h
    exact absurd h (lt_irrefl _)
  · rw [Prod.Lex.le_iff] at hle
    rcases hle with h | ⟨-, hle⟩
    · rw [h2] at h
      exact absurd h (lt_irrefl _)
    · rw [Prod.Lex.le_iff] at hle
      unfold keyLe
      rcases hle with h | ⟨h3, h4⟩
      · left
        omega
      · omega

theorem perm_insertSorted {α : Type} (le : α → α → Bool) (x : α) :
    ∀ l : List α, (insertSorted le x l).Perm (x :: l) := by
  intro l
  induction l with
  | nil => exact List.Perm.refl _
  | cons b t ih =>
    rw [insertSorted]
    by_cases h : le x b
    · rw [if_pos h]
    · rw [if_neg h]
      exact List.Perm.trans (List.Perm.cons b ih) (List.Perm.swap x b t)

theorem perm_sortBy {α : Type} (le : α → α → Bool) :
    ∀ l : List α, (sortBy le l).Perm l := by
  intro l
  induction l with
  | nil => exact List.Perm.refl _
  | cons a t ih =>
    exact List.Perm.trans (perm_insertSorted le a (sortBy le t)) (List.Perm.cons a ih)

theorem mem_insertSorted {α : Type} (le : α → α → Bool) (x : α) (l : List α) (a : α) :
    a ∈ insertSorted le x l ↔ a = x ∨ a ∈ l := by
  rw [(perm_insertSorted le x l).mem_iff, List.mem_cons]

theorem sorted_insertSorted {α : Type} (le : α → α → Bool)
    (htrans : ∀ a b c, le a b = true → le b c = true → le a c = true)
    (htotal : ∀ a b, (le a b || le b a) = true) (x : α) :
    ∀ l : List α, List.Pairwise (fun a b => le a b = true) l →
      List.Pairwise (fun a b => le a b = true) (insertSorted le x l) := by
  intro l
  induction l with
  | nil =>
    intro _
    exact List.pairwise_singleton _ _
  | cons b t ih =>
    intro hs
    obtain ⟨hb, ht⟩ := List.pairwise_cons.mp hs
    rw [insertSorted]
    by_cases h : le x b
    · rw [if_pos h]
      apply List.pairwise_cons.mpr
      refine ⟨?_, hs⟩
      intro y hy
      rcases List.mem_cons.mp hy with hy | hy
      · rw [hy]
        exact h
      · exact htrans x b y h (hb y hy)
    · rw [if_neg h]
      have hbx : le b x = true := by
        have := htotal x b
        rw [Bool.or_eq_true] at this
        rcases this with h' | h'
        · exact absurd h' h
        · exact h'
      apply List.pairwise_cons.mpr
      refine ⟨?_, ih ht⟩
      intro y hy
      rcases (mem_insertSorted le x t y).mp hy with hy | hy
      · rw [hy]
        exact hbx
      · exact hb y hy

theorem sorted_sortBy {α : Type} (le : α → α → Bool)
    (htrans : ∀ a b c, le a b = true → le b c = true → le a c = true)
    (htotal : ∀ a b, (le a b || le b a) = true) :
    ∀ l : List α, List.Pairwise (fun a b => le a b = true) (sortBy le l) := by
  intro l
  induction l with
  | nil => exact List.Pairwise.nil
  | cons a t ih => exact sorted_insertSorted le htrans htotal a (sortBy le t) ih

theorem mem_sortBy_rows (desc : Bool) (l : List StorageRow) (r : StorageRow) :
    r ∈ sortBy (rowLE desc) l ↔ r ∈ l :=
  (perm_sortBy (rowLE desc) l).mem_iff

theorem pairwise_sortBy_rows (desc : Bool) (l : List StorageRow) :
    List.Pairwise (fun a b => rowLE desc a b = true) (sortBy (rowLE desc) l) :=
  sorted_sortBy (rowLE desc) (rowLE_trans desc) (rowLE_total desc) l

theorem mem_of_mem_dedupOn : ∀ (l : List StorageRow), ∀ r ∈ dedupOn l, r ∈ l := by
  intro l
  induction l with
  | nil =>
    intro r h
    cases h
  | cons a t ih =>
    intro r h
    rw [dedupOn, List.mem_cons] at h
    rcases h with h | h
    · rw [h]
      exact List.mem_cons_self _ _
    · exact List.mem_cons_of_mem _ (ih r (List.mem_of_mem_filter h))

theorem dedupOn_cover : ∀ (l : List StorageRow), ∀ r ∈ l,
    ∃ rep ∈ dedupOn l, sameKey rep r = true := by
  intro l
  induction l with
  | nil =>
    intro r h
    cases h
  | cons a t ih =>
    intro r h
    rw [dedupOn]
    by_cases hk : sameKey a r = true
    · exact ⟨a, List.mem_cons_self _ _, hk⟩
    · have hrt : r ∈ t := by
        cases h with
        | head => exact absurd (sameKey_refl a) hk
        | tail _ h' => exact h'
      obtain ⟨rep, hrep, hk2⟩ := ih r hrt
      have hrepa : sameKey rep a = false := by
        apply Bool.eq_false_iff.mpr
        intro hc
        exact hk (sameKey_trans (sameKey_symm hc) hk2)
      have hrf : rep ∈ (dedupOn t).filter (fun x => !sameKey x a) :=
        List.mem_filter.mpr ⟨hrep, by simp [hrepa]⟩
      exact ⟨rep, List.mem_cons_of_mem _ hrf, hk2⟩

theorem dedupOn_min (desc : Bool) : ∀ (l : List StorageRow),
    List.Pairwise (fun a b => rowLE desc a b = true) l →
    ∀ rep ∈ dedupOn l, ∀ r ∈ l, sameKey rep r = true → rowLE desc rep r = true := by
  intro l
  induction l with
  | nil =>
    intro _ rep h
    cases h
  | cons a t ih =>
    intro hp rep hrep r hr hk
    rw [dedupOn, List.mem_cons] at hrep
    rcases hrep with hrep | hrep
    · subst hrep
      cases hr with
      | head => exact rowLE_refl desc rep
      | tail _ h' => exact (List.pairwise_cons.mp hp).1 r h'
    · have hrepd : rep ∈ dedupOn t := List.mem_of_mem_filter hrep
      have hrepna : sameKey rep a = false := by
        have h2 := (List.mem_filter.mp hrep).2
        simpa using h2
      cases hr with
      | head =>
        rw [hk] at hrepna
        cases hrepna
      | tail _ h' =>
        exact ih ((List.pairwise_cons.mp hp).2) rep hrepd r h' hk

theorem dedupOn_keys : ∀ (l : List StorageRow),
    List.Pairwise (fun a b => sameKey a b = false) (dedupOn l) := by
  intro l
  induction l with
  | nil => exact List.Pairwise.nil
  | cons a t ih =>
    rw [dedupOn]
    apply List.pairwise_cons.mpr
    refine ⟨?_, List.Pairwise.sublist (List.filter_sublist _) ih⟩
    intro b hb
    have hba : sameKey b a = false := by
      have h2 := (List.mem_filter.mp hb).2
      simpa using h2
    apply Bool.eq_false_iff.mpr
    intro hc
    rw [sameKey_symm hc] at hba
    cases hba

theorem foldl_mulAdd (l : Bytes) (acc : Nat) :
    l.foldl (fun a x => a * 256 + x) acc = acc * 256 ^ l.length + fromBigEndian l := by
  induction l generalizing acc with
  | nil => simp [fromBigEndian]
  | cons x xs ih =>
    show List.foldl _ (acc * 256 + x) xs =
      acc * 256 ^ (x :: xs).length + fromBigEndian (x :: xs)
    rw [ih]
    show _ = _ + List.foldl _ (0 * 256 + x) xs
    rw [ih]
    simp only [List.length_cons, pow_succ]
    ring

theorem fromBigEndian_cons (x : Nat) (xs : Bytes) :
    fromBigEndian (x :: xs) = x * 256 ^ xs.length + fromBigEndian xs := by
  show List.foldl _ (0 * 256 + x) xs = _
  rw [foldl_mulAdd]
  ring

theorem fromBigEndian_append_singleton (l : Bytes) (d : Nat) :
    fromBigEndian (l ++ [d]) = fromBigEndian l * 256 + d := by
  show List.foldl _ 0 (l ++ [d]) = _
  rw [List.foldl_append]
  rfl

theorem fromBigEndian_lt (l : Bytes) (h : ∀ x ∈ l, x < 256) :
    fromBigEndian l < 256 ^ l.length := by
  induction l with
  | nil => simp [fromBigEndian]
  | cons x xs ih =>
    have hx : x ≤ 255 := by
      have := h x (List.mem_cons_self _ _)
      omega
    have h1 : x * 256 ^ xs.length ≤ 255 * 256 ^ xs.length :=
      Nat.mul_le_mul_right _ hx
    have h2 : fromBigEndian xs < 256 ^ xs.length :=
      ih (fun y hy => h y (List.mem_cons_of_mem _ hy))
    rw [fromBigEndian_cons, List.length_cons, pow_succ]
    linarith

theorem fromBigEndian_inj : ∀ (a b : Bytes), a.length = b.length →
    (∀ x ∈ a, x < 256) → (∀ x ∈ b, x < 256) →
    fromBigEndian a = fromBigEndian b → a = b := by
  intro a
  induction a with
  | nil =>
    intro b hlen _ _ _
    cases b with
    | nil => rfl
    | cons y ys => simp at hlen
  | cons x xs ih =>
    intro b hlen ha hb heq
    cases b with
    | nil => simp at hlen
    | cons y ys =>
      simp only [List.length_cons] at hlen
      have hlen' : xs.length = ys.length := by omega
      rw [fromBigEndian_cons, fromBigEndian_cons, hlen'] at heq
      have hFx : fromBigEndian xs < 256 ^ ys.length := by
        rw [← hlen']
        exact fromBigEndian_lt xs (fun z hz => ha z (List.mem_cons_of_mem _ hz))
      have hFy : fromBigEndian ys < 256 ^ ys.length :=
        fromBigEndian_lt ys (fun z hz => hb z (List.mem_cons_of_mem _ hz))
      have hB : 0 < 256 ^ ys.length := Nat.pos_pow_of_pos _ (by norm_num)
      have e1 : (x * 256 ^ ys.length + fromBigEndian xs) / 256 ^ ys.length = x := by
        rw [Nat.mul_comm x, Nat.mul_add_div hB, Nat.div_eq_of_lt hFx]
        omega
      have e2 : (y * 256 ^ ys.length + fromBigEndian ys) / 256 ^ ys.length = y := by
        rw [Nat.mul_comm y, Nat.mul_add_div hB, Nat.div_eq_of_lt hFy]
        omega
      have hxy : x = y := by
        rw [← e1, ← e2, heq]
      subst hxy
      have htail : fromBigEndian xs = fromBigEndian ys := by omega
      rw [ih ys hlen' (fun z hz => ha z (List.mem_cons_of_mem _ hz))
        (fun z hz => hb z (List.mem_cons_of_mem _ hz)) htail]

theorem toBEbytes_length (k : Nat) : ∀ n, (toBEbytes k n).length = k := by
  induction k with
  | zero => intro n; rfl
  | succ k ih =>
    intro n
    show (toBEbytes k (n / 256) ++ [n % 256]).length = k + 1
    simp [ih]

theorem toBEbytes_lt (k : Nat) : ∀ n, ∀ x ∈ toBEbytes k n, x < 256 := by
  induction k with
  | zero =>
    intro n x hx
    cases hx
  | succ k ih =>
    intro n x hx
    have hx' : x ∈ toBEbytes k (n / 256) ++ [n % 256] := hx
    rw [List.mem_append] at hx'
    rcases hx' with h | h
    · exact ih _ x h
    · have : x = n % 256 := by simpa using h
      rw [this]
      exact Nat.mod_lt _ (by norm_num)

theorem fromBigEndian_toBEbytes (k : Nat) : ∀ n,
    fromBigEndian (toBEbytes k n) = n % 256 ^ k := by
  induction k with
  | zero =>
    intro n
    simp only [toBEbytes, fromBigEndian, List.foldl_nil, pow_zero]
    omega
  | succ k ih =>
    intro n
    show fromBigEndian (toBEbytes k (n / 256) ++ [n % 256]) = _
    rw [fromBigEndian_append_singleton, ih]
    rw [pow_succ, Nat.mul_comm (256 ^ k) 256, Nat.mod_mul]
    omega

theorem lookupA_insertA_self {κ ν : Type} [DecidableEq κ] (k : κ) (v : ν)
    (m : List (κ × ν)) : lookupA k (insertA k v m) = some v := by
  induction m with
  | nil => simp [insertA, lookupA]
  | cons p rest ih =>
    by_cases h : p.1 = k
    · simp [insertA, h, lookupA]
    · simp [insertA, h, lookupA, ih]

theorem lookupA_insertA_ne {κ ν : Type} [DecidableEq κ] (k k' : κ) (v : ν)
    (m : List (κ × ν)) (hne : k' ≠ k) : lookupA k' (insertA k v m) = lookupA k' m := by
  induction m with
  | nil =>
    show (if k = k' then some v else none) = none
    rw [if_neg (fun h => hne h.symm)]
  | cons p rest ih =>
    by_cases h : p.1 = k
    · rw [show insertA k v (p :: rest) = (k, v) :: rest from by simp [insertA, h]]
      show (if k = k' then some v else lookupA k' rest) =
        (if p.1 = k' then some p.2 else lookupA k' rest)
      rw [if_neg (fun hh => hne hh.symm), if_neg (by rw [h]; exact fun hh => hne hh.symm)]
    · rw [show insertA k v (p :: rest) = p :: insertA k v rest from by simp [insertA, h]]
      show (if p.1 = k' then some p.2 else lookupA k' (insertA k v rest)) =
        (if p.1 = k' then some p.2 else lookupA k' rest)
      by_cases h2 : p.1 = k'
      · rw [if_pos h2, if_pos h2]
      · rw [if_neg h2, if_neg h2, ih]

theorem insertA_fresh {κ ν : Type} [DecidableEq κ] (k : κ) (v : ν)
    (m : List (κ × ν)) (h : ∀ p ∈ m, p.1 ≠ k) : insertA k v m = m ++ [(k, v)] := by
  induction m with
  | nil => rfl
  | cons p rest ih =>
    have hp : p.1 ≠ k := h p (List.mem_cons_self _ _)
    simp only [insertA, if_neg hp, List.cons_append]
    rw [ih (fun q hq => h q (List.mem_cons_of_mem _ hq))]

theorem lookupA_eq_some_imp_mem {κ ν : Type} [DecidableEq κ] (m : List (κ × ν))
    (k : κ) (v : ν) (h : lookupA k m = some v) : (k, v) ∈ m := by
  induction m with
  | nil => cases h
  | cons p rest ih =>
    by_cases hp : p.1 = k
    · rw [lookupA, if_pos hp] at h
      have hv : p.2 = v := by
        injection h
      obtain ⟨p1, p2⟩ := p
      have hp' : p1 = k := hp
      have hv' : p2 = v := hv
      subst hp'
      subst hv'
      exact List.mem_cons_self _ _
    · rw [lookupA, if_neg hp] at h
      exact List.mem_cons_of_mem _ (ih h)

theorem lookupA_mem_of_nodup {κ ν : Type} [DecidableEq κ] (m : List (κ × ν))
    (hnd : (m.map (fun p => p.1)).Nodup) (k : κ) (v : ν) (hm : (k, v) ∈ m) :
    lookupA k m = some v := by
  induction m with
  | nil => cases hm
  | cons p rest ih =>
    simp only [List.map_cons, List.nodup_cons] at hnd
    cases hm with
    | head =>
      rw [lookupA]
      simp
    | tail _ h' =>
      have hp : p.1 ≠ k := by
        intro hc
        apply hnd.1
        rw [hc]
        exact List.mem_map_of_mem (fun q => q.1) h'
      rw [lookupA, if_neg hp]
      exact ih hnd.2 h'

theorem lookupA_eq_none_iff {κ ν : Type} [DecidableEq κ] (m : List (κ × ν)) (k : κ) :
    lookupA k m = none ↔ ∀ p ∈ m, p.1 ≠ k := by
  induction m with
  | nil => simp [lookupA]
  | cons p rest ih =>
    by_cases hp : p.1 = k
    · simp [lookupA, hp]
    · simp [lookupA, hp, ih]

theorem lookupA_cons {κ ν : Type} [DecidableEq κ] (p : κ × ν) (rest : List (κ × ν)) (k : κ) :
    lookupA k (p :: rest) = if p.1 = k then some p.2 else lookupA k rest := rfl

theorem lookup2_nil (addr : Bytes) (k : Nat) : lookup2 [] addr k = none := rfl

theorem lookup2_cons (p : Bytes × List (Nat × Nat)) (rest : List (Bytes × List (Nat × Nat)))
    (addr : Bytes) (k : Nat) :
    lookup2 (p :: rest) addr k =
      if p.1 = addr then lookupA k p.2 else lookup2 rest addr k := by
  unfold lookup2
  rw [lookupA_cons]
  by_cases h : p.1 = addr
  · rw [if_pos h, if_pos h]
  · rw [if_neg h, if_neg h]

theorem insert2_cons_eq (a : Bytes) (k v : Nat) (p : Bytes × List (Nat × Nat))
    (rest : List (Bytes × List (Nat × Nat))) (h : p.1 = a) :
    insert2 a k v (p :: rest) = (p.1, insertA k v p.2) :: rest := by
  simp [insert2, h]

theorem insert2_cons_ne (a : Bytes) (k v : Nat) (p : Bytes × List (Nat × Nat))
    (rest : List (Bytes × List (Nat × Nat))) (h : ¬p.1 = a) :
    insert2 a k v (p :: rest) = p :: insert2 a k v rest := by
  simp [insert2, h]

theorem lookup2_insert2 (a : Bytes) (k₁ v₁ : Nat) :
    ∀ (m : List (Bytes × List (Nat × Nat))) (addr : Bytes) (k : Nat),
    lookup2 (insert2 a k₁ v₁ m) addr k =
      if addr = a ∧ k = k₁ then some v₁ else lookup2 m addr k := by
  intro m
  induction m with
  | nil =>
    intro addr k
    show lookup2 [(a, [(k₁, v₁)])] addr k = _
    rw [lookup2_cons]
    by_cases h1 : a = addr
    · rw [if_pos h1, lookupA_cons]
      by_cases h2 : k₁ = k
      · rw [if_pos h2, if_pos ⟨h1.symm, h2.symm⟩]
      · rw [if_neg h2, if_neg (fun hc => h2 hc.2.symm)]
        rfl
    · rw [if_neg h1, if_neg (fun hc => h1 hc.1.symm)]
  | cons p rest ih =>
    intro addr k
    by_cases hpa : p.1 = a
    · rw [insert2_cons_eq a k₁ v₁ p rest hpa, lookup2_cons, lookup2_cons]
      by_cases haddr : p.1 = addr
      · rw [if_pos haddr, if_pos haddr]
        have haa : addr = a := haddr ▸ hpa
        by_cases h2 : k = k₁
        · rw [if_pos ⟨haa, h2⟩, h2, lookupA_insertA_self]
        · rw [if_neg (fun hc => h2 hc.2), lookupA_insertA_ne _ _ _ _ h2]
      · rw [if_neg haddr, if_neg haddr]
        have hna : ¬addr = a := fun hc => haddr (hpa.trans hc.symm)
        rw [if_neg (fun hc : addr = a ∧ k = k₁ => hna hc.1)]
    · rw [insert2_cons_ne a k₁ v₁ p rest hpa, lookup2_cons, lookup2_cons]
      by_cases haddr : p.1 = addr
      · rw [if_pos haddr, if_pos haddr,
          if_neg (fun hc : addr = a ∧ k = k₁ => hpa (haddr.trans hc.1))]
      · rw [if_neg haddr, if_neg haddr, ih]

theorem mem_map_fst_insertA {κ ν : Type} [DecidableEq κ] (k : κ) (v : ν) :
    ∀ (m : List (κ × ν)) (x : κ),
    (x ∈ (insertA k v m).map (fun p => p.1) ↔ x ∈ m.map (fun p => p.1) ∨ x = k) := by
  intro m
  induction m with
  | nil =>
    intro x
    simp [insertA]
  | cons p rest ih =>
    intro x
    by_cases h : p.1 = k
    · rw [show insertA k v (p :: rest) = (k, v) :: rest from by simp [insertA, h]]
      simp only [List.map_cons, List.mem_cons]
      rw [h]
      tauto
    · rw [show insertA k v (p :: rest) = p :: insertA k v rest from by simp [insertA, h]]
      simp only [List.map_cons, List.mem_cons]
      rw [ih]
      tauto

theorem nodup_insertA {κ ν : Type} [DecidableEq κ] (k : κ) (v : ν) :
    ∀ (m : List (κ × ν)), (m.map (fun p => p.1)).Nodup →
    ((insertA k v m).map (fun p => p.1)).Nodup := by
  intro m
  induction m with
  | nil =>
    intro _
    simp [insertA]
  | cons p rest ih =>
    intro h
    simp only [List.map_cons, List.nodup_cons] at h
    by_cases hp : p.1 = k
    · rw [show insertA k v (p :: rest) = (k, v) :: rest from by simp [insertA, hp]]
      simp only [List.map_cons, List.nodup_cons]
      exact ⟨hp ▸ h.1, h.2⟩
    · rw [show insertA k v (p :: rest) = p :: insertA k v rest from by simp [insertA, hp]]
      simp only [List.map_cons, List.nodup_cons]
      refine ⟨?_, ih h.2⟩
      intro hc
      rcases (mem_map_fst_insertA k v rest p.1).mp hc with hc | hc
      · exact h.1 hc
      · exact hp hc

theorem mem_map_fst_insert2 (a : Bytes) (k v : Nat) :
    ∀ (m : List (Bytes × List (Nat × Nat))) (x : Bytes),
    (x ∈ (insert2 a k v m).map (fun p => p.1) ↔ x ∈ m.map (fun p => p.1) ∨ x = a) := by
  intro m
  induction m with
  | nil =>
    intro x
    simp [insert2]
  | cons p rest ih =>
    intro x
    by_cases hp : p.1 = a
    · rw [insert2_cons_eq a k v p rest hp]
      simp only [List.map_cons, List.mem_cons]
      rw [hp]
      tauto
    · rw [insert2_cons_ne a k v p rest hp]
      simp only [List.map_cons, List.mem_cons]
      rw [ih]
      tauto

theorem nodup_fst_insert2 (a : Bytes) (k v : Nat) :
    ∀ (m : List (Bytes × List (Nat × Nat))), (m.map (fun p => p.1)).Nodup →
    ((insert2 a k v m).map (fun p => p.1)).Nodup := by
  intro m
  induction m with
  | nil =>
    intro _
    simp [insert2]
  | cons p rest ih =>
    intro h
    simp only [List.map_cons, List.nodup_cons] at h
    by_cases hp : p.1 = a
    · rw [insert2_cons_eq a k v p rest hp]
      simp only [List.map_cons, List.nodup_cons]
      exact h
    · rw [insert2_cons_ne a k v p rest hp]
      simp only [List.map_cons, List.nodup_cons]
      refine ⟨?_, ih h.2⟩
      intro hc
      rcases (mem_map_fst_insert2 a k v rest p.1).mp hc with hc | hc
      · exact h.1 hc
      · exact hp hc

theorem inner_nodup_insert2 (a : Bytes) (k v : Nat) :
    ∀ (m : List (Bytes × List (Nat × Nat))),
    (∀ p ∈ m, (p.2.map (fun q => q.1)).Nodup) →
    ∀ p ∈ insert2 a k v m, (p.2.map (fun q => q.1)).Nodup := by
  intro m
  induction m with
  | nil =>
    intro _ p hp
    have hp' : p = (a, [(k, v)]) := by simpa [insert2] using hp
    rw [hp']
    simp
  | cons q rest ih =>
    intro h p hp
    by_cases hq : q.1 = a
    · rw [insert2_cons_eq a k v q rest hq, List.mem_cons] at hp
      rcases hp with hp | hp
      · rw [hp]
        exact nodup_insertA k v q.2 (h q (List.mem_cons_self _ _))
      · exact h p (List.mem_cons_of_mem _ hp)
    · rw [insert2_cons_ne a k v q rest hq, List.mem_cons] at hp
      rcases hp with hp | hp
      · rw [hp]
        exact h q (List.mem_cons_self _ _)
      · exact ih (fun r hr => h r (List.mem_cons_of_mem _ hr)) p hp

theorem decodeAddressesGo_err :
    ∀ (rows acc : List (Int × Bytes)) (e : StorageError),
    decodeAddressesGo rows acc = .error e → ∃ msg, e = .decodeError msg := by
  intro rows
  induction rows with
  | nil =>
    intro acc e h
    cases h
  | cons kv rest ih =>
    intro acc e h
    rw [decodeAddressesGo] at h
    by_cases h20 : kv.2.length = 20
    · rw [if_pos h20] at h
      exact ih _ e h
    · rw [if_neg h20] at h
      injection h with h'
      exact ⟨_, h'.symm⟩

theorem decodeAddressesGo_ok_mem :
    ∀ (rows acc A : List (Int × Bytes)), decodeAddressesGo rows acc = .ok A →
    (∀ kv ∈ rows, kv.2.length = 20) ∧
    (∀ k v, lookupA k A = some v → (k, v) ∈ rows ∨ lookupA k acc = some v) := by
  intro rows
  induction rows with
  | nil =>
    intro acc A h
    injection h with h'
    subst h'
    exact ⟨fun kv hkv => absurd hkv (List.not_mem_nil kv), fun k v hl => Or.inr hl⟩
  | cons kv rest ih =>
    intro acc A h
    rw [decodeAddressesGo] at h
    by_cases h20 : kv.2.length = 20
    · rw [if_pos h20] at h
      obtain ⟨hall, hlook⟩ := ih _ A h
      constructor
      · intro kv' hkv'
        rcases List.mem_cons.mp hkv' with hkv' | hkv'
        · rw [hkv']
          exact h20
        · exact hall kv' hkv'
      · intro k v hl
        rcases hlook k v hl with hin | hacc
        · exact Or.inl (List.mem_cons_of_mem _ hin)
        · by_cases hk : k = kv.1
          · subst hk
            rw [lookupA_insertA_self] at hacc
            injection hacc with hv
            left
            rw [← hv]
            exact List.mem_cons_self _ _
          · rw [lookupA_insertA_ne _ _ _ _ hk] at hacc
            exact Or.inr hacc
    · rw [if_neg h20] at h
      cases h

theorem decodeAddressesGo_ok_append :
    ∀ (rows acc : List (Int × Bytes)), (∀ kv ∈ rows, kv.2.length = 20) →
    (((acc ++ rows).map (fun p => p.1)).Nodup) →
    decodeAddressesGo rows acc = .ok (acc ++ rows) := by
  intro rows
  induction rows with
  | nil =>
    intro acc _ _
    simp [decodeAddressesGo]
  | cons kv rest ih =>
    intro acc h20 hnd
    rw [decodeAddressesGo, if_pos (h20 kv (List.mem_cons_self _ _))]
    have hfresh : ∀ p ∈ acc, p.1 ≠ kv.1 := by
      intro p hp hc
      have hnd' := hnd
      rw [List.map_append, List.nodup_append] at hnd'
      exact hnd'.2.2 (List.mem_map_of_mem (fun q => q.1) hp)
        (by
          rw [hc]
          exact List.mem_map_of_mem (fun (q : Int × Bytes) => q.1)
            (List.mem_cons_self kv rest))
    rw [insertA_fresh kv.1 kv.2 acc (by simpa using hfresh)]
    have hres := ih (acc ++ [(kv.1, kv.2)])
      (fun q hq => h20 q (List.mem_cons_of_mem _ hq))
      (by
        rw [List.append_assoc]
        simpa using hnd)
    rw [hres]
    rw [List.append_assoc]
    rfl

theorem buildResultGo_err (A : List (Int × Bytes)) :
    ∀ (triples : List (Int × Bytes × Option Bytes)) (acc : List (Bytes × List (Nat × Nat)))
      (e : StorageError),
    buildResultGo A triples acc = .error e → ∃ msg, e = .decodeError msg := by
  intro triples
  induction triples with
  | nil =>
    intro acc e h
    cases h
  | cons t rest ih =>
    intro acc e h
    rw [buildResultGo] at h
    split at h
    · injection h with h'
      exact ⟨_, h'.symm⟩
    · split at h
      · injection h with h'
        exact ⟨_, h'.symm⟩
      · split at h
        · split at h
          · injection h with h'
            exact ⟨_, h'.symm⟩
          · exact ih _ e h
        · exact ih _ e h

theorem buildResultGo_ok_conds (A : List (Int × Bytes)) :
    ∀ (triples : List (Int × Bytes × Option Bytes)) (acc m : List (Bytes × List (Nat × Nat))),
    buildResultGo A triples acc = .ok m →
    ∀ t ∈ triples, (∃ a, lookupA t.1 A = some a) ∧ t.2.1.length = 32 ∧
      (∀ v, t.2.2 = some v → v.length = 32) := by
  intro triples
  induction triples with
  | nil =>
    intro acc m _ t ht
    cases ht
  | cons t₀ rest ih =>
    intro acc m h t ht
    rw [buildResultGo] at h
    split at h
    · cases h
    · rename_i ca hl
      split at h
      · cases h
      · rename_i hk
        have hk' : t₀.2.1.length = 32 := by omega
        split at h
        · rename_i val hv
          split at h
          · cases h
          · rename_i hvl
            rcases List.mem_cons.mp ht with ht' | ht'
            · subst ht'
              refine ⟨⟨ca, hl⟩, hk', ?_⟩
              intro v hc
              rw [hv] at hc
              injection hc with hc'
              rw [← hc']
              omega
            · exact ih _ m h t ht'
        · rename_i hv
          rcases List.mem_cons.mp ht with ht' | ht'
          · subst ht'
            exact ⟨⟨ca, hl⟩, hk', fun v hc => by rw [hv] at hc; cases hc⟩
          · exact ih _ m h t ht'

theorem buildResultGo_nodup (A : List (Int × Bytes)) :
    ∀ (triples : List (Int × Bytes × Option Bytes)) (acc m : List (Bytes × List (Nat × Nat))),
    buildResultGo A triples acc = .ok m →
    (acc.map (fun p => p.1)).Nodup → (∀ p ∈ acc, (p.2.map (fun q => q.1)).Nodup) →
    (m.map (fun p => p.1)).Nodup ∧ ∀ p ∈ m, (p.2.map (fun q => q.1)).Nodup := by
  intro triples
  induction triples with
  | nil =>
    intro acc m h h1 h2
    injection h with h'
    subst h'
    exact ⟨h1, h2⟩
  | cons t rest ih =>
    intro acc m h h1 h2
    rw [buildResultGo] at h
    split at h
    · cases h
    · split at h
      · cases h
      · split at h
        · split at h
          · cases h
          · exact ih _ m h (nodup_fst_insert2 _ _ _ _ h1) (inner_nodup_insert2 _ _ _ _ h2)
        · exact ih _ m h (nodup_fst_insert2 _ _ _ _ h1) (inner_nodup_insert2 _ _ _ _ h2)

theorem mem_inRange (store : Store) (cid lo hi : Int) (r : StorageRow) :
    r ∈ inRange store cid lo hi ↔
      r ∈ store.contract_storage ∧
      (∃ c ∈ store.contracts, c.id = r.contract_id ∧ c.chain_id = cid) ∧
      lo < r.valid_from ∧ r.valid_from ≤ hi := by
  simp only [inRange, chainJoined, List.mem_filter, List.any_eq_true, Bool.and_eq_true,
    beq_iff_eq, decide_eq_true_eq]
  tauto

theorem buildResultGo_cons_ok (A : List (Int × Bytes)) (t : Int × Bytes × Option Bytes)
    (rest : List (Int × Bytes × Option Bytes)) (acc : List (Bytes × List (Nat × Nat)))
    (a : Bytes) (hl : lookupA t.1 A = some a) (hk : t.2.1.length = 32)
    (hv : ∀ v, t.2.2 = some v → v.length = 32) :
    buildResultGo A (t :: rest) acc =
      buildResultGo A rest (insert2 a (fromBigEndian t.2.1) (decodeVal t.2.2) acc) := by
  cases hvv : t.2.2 with
  | none =>
    simp only [buildResultGo, hl, hvv, decodeVal]
    rw [if_neg (by omega)]
  | some val =>
    have hvl : val.length = 32 := hv val hvv
    simp only [buildResultGo, hl, hvv, decodeVal]
    rw [if_neg (by omega), if_neg (by omega)]

theorem buildResultGo_lookup (A : List (Int × Bytes)) :
    ∀ (triples : List (Int × Bytes × Option Bytes)) (acc : List (Bytes × List (Nat × Nat))),
    (∀ t ∈ triples, (∃ a, lookupA t.1 A = some a) ∧ t.2.1.length = 32 ∧
      (∀ v, t.2.2 = some v → v.length = 32)) →
    List.Pairwise (fun t t' => ¬(lookupA t.1 A = lookupA t'.1 A ∧
      fromBigEndian t.2.1 = fromBigEndian t'.2.1)) triples →
    ∃ m, buildResultGo A triples acc = .ok m ∧
      ∀ (addr : Bytes) (k : Nat), lookup2 m addr k =
        (match triples.find? (fun t =>
            lookupA t.1 A == some addr && fromBigEndian t.2.1 == k) with
         | some t => some (decodeVal t.2.2)
         | none => lookup2 acc addr k) := by
  intro triples
  induction triples with
  | nil =>
    intro acc _ _
    refine ⟨acc, rfl, ?_⟩
    intro addr k
    rw [List.find?_nil]
  | cons t rest ih =>
    intro acc hok hdist
    obtain ⟨⟨a, hl⟩, hk32, hv32⟩ := hok t (List.mem_cons_self _ _)
    rw [buildResultGo_cons_ok A t rest acc a hl hk32 hv32]
    obtain ⟨m, hm, hchar⟩ := ih (insert2 a (fromBigEndian t.2.1) (decodeVal t.2.2) acc)
      (fun t' ht' => hok t' (List.mem_cons_of_mem _ ht'))
      (List.pairwise_cons.mp hdist).2
    refine ⟨m, hm, ?_⟩
    intro addr k
    rw [hchar addr k]
    by_cases hpred : (lookupA t.1 A == some addr && fromBigEndian t.2.1 == k) = true
    · have hp12 := hpred
      simp only [Bool.and_eq_true] at hp12
      obtain ⟨hp1, hp2⟩ := hp12
      have hceq : some a = some addr := hl ▸ beq_iff_eq.mp hp1
      have haddr : addr = a := by
        injection hceq with h'
        exact h'.symm
      have hkeq : fromBigEndian t.2.1 = k := by
        exact_mod_cast beq_iff_eq.mp hp2
      have hnone : rest.find? (fun t' =>
          lookupA t'.1 A == some addr && fromBigEndian t'.2.1 == k) = none := by
        apply List.find?_eq_none.mpr
        intro t' ht' hc
        simp only [Bool.and_eq_true] at hc
        obtain ⟨hc1, hc2⟩ := hc
        apply (List.pairwise_cons.mp hdist).1 t' ht'
        constructor
        · rw [hl, beq_iff_eq.mp hc1, hceq]
        · rw [hkeq]
          exact_mod_cast (beq_iff_eq.mp hc2).symm
      rw [hnone,
        @List.find?_cons_of_pos _ (fun t' =>
          lookupA t'.1 A == some addr && fromBigEndian t'.2.1 == k) t rest hpred]
      show lookup2 (insert2 a (fromBigEndian t.2.1) (decodeVal t.2.2) acc) addr k =
        some (decodeVal t.2.2)
      rw [lookup2_insert2, if_pos ⟨haddr, hkeq.symm⟩]
    · rw [@List.find?_cons_of_neg _ (fun t' =>
        lookupA t'.1 A == some addr && fromBigEndian t'.2.1 == k) t rest hpred]
      cases hfind : rest.find? (fun t' =>
          lookupA t'.1 A == some addr && fromBigEndian t'.2.1 == k) with
      | some t' => rfl
      | none =>
        show lookup2 (insert2 a (fromBigEndian t.2.1) (decodeVal t.2.2) acc) addr k =
          lookup2 acc addr k
        rw [lookup2_insert2]
        rw [if_neg ?hcond]
        case hcond =>
          intro hc
          apply hpred
          simp only [Bool.and_eq_true]
          constructor
          · rw [hl, hc.1]
            simp
          · rw [hc.2]
            simp

/-- Soundness of one directional branch of `get_slots_delta`, generic over the
sort direction (`desc`) and the selected column (`col`): the address query
decodes, the result map builds, each in-range row's group is represented by
the group's first row in sort order, and every map entry stems from an
in-range row. -/
theorem delta_pipeline_correct (desc : Bool) (col : StorageRow → Option Bytes)
    (store : Store) (cid lo hi : Int) (hwf : WfStore store cid)
    (hcol : ∀ r ∈ store.contract_storage, ∀ v, col r = some v → v.length = 32) :
    ∃ m,
      decodeAddresses (addrQueryRows store
        ((dedupOn (sortBy (rowLE desc) (inRange store cid lo hi))).map
          (fun r => (r.contract_id, r.slot, col r)))) =
        .ok (addrQueryRows store
          ((dedupOn (sortBy (rowLE desc) (inRange store cid lo hi))).map
            (fun r => (r.contract_id, r.slot, col r)))) ∧
      buildResult ((dedupOn (sortBy (rowLE desc) (inRange store cid lo hi))).map
          (fun r => (r.contract_id, r.slot, col r)))
        (addrQueryRows store
          ((dedupOn (sortBy (rowLE desc) (inRange store cid lo hi))).map
            (fun r => (r.contract_id, r.slot, col r)))) = .ok m ∧
      (∀ r ∈ inRange store cid lo hi,
        ∃ rep ∈ inRange store cid lo hi, sameKey rep r = true ∧
          (∀ r2 ∈ inRange store cid lo hi, sameKey rep r2 = true →
            rowLE desc rep r2 = true) ∧
          ∀ c ∈ store.contracts, c.id = r.contract_id →
            lookup2 m c.address (fromBigEndian r.slot) = some (decodeVal (col rep))) ∧
      (∀ (addr : Bytes) (k v : Nat), lookup2 m addr k = some v →
        ∃ r ∈ inRange store cid lo hi, ∃ c ∈ store.contracts,
          c.id = r.contract_id ∧ c.address = addr ∧ fromBigEndian r.slot = k ∧
          v = decodeVal (col r)) ∧
      ((m.map (fun p => p.1)).Nodup ∧ ∀ p ∈ m, (p.2.map (fun q => q.1)).Nodup) := by
  have hout_rows : ∀ r' ∈ dedupOn (sortBy (rowLE desc) (inRange store cid lo hi)),
      r' ∈ inRange store cid lo hi := fun r' h =>
    (mem_sortBy_rows desc (inRange store cid lo hi) r').mp
      (mem_of_mem_dedupOn _ r' h)
  have hrows_cs : ∀ r ∈ inRange store cid lo hi, r ∈ store.contract_storage :=
    fun r h => ((mem_inRange store cid lo hi r).mp h).1
  have hrows_c : ∀ r ∈ inRange store cid lo hi,
      ∃ c ∈ store.contracts, c.id = r.contract_id ∧ c.chain_id = cid :=
    fun r h => ((mem_inRange store cid lo hi r).mp h).2.1
  have hidinj : ∀ c₁ ∈ store.contracts, ∀ c₂ ∈ store.contracts, c₁.id = c₂.id → c₁ = c₂ :=
    fun c₁ h₁ c₂ h₂ he => List.inj_on_of_nodup_map hwf.ids_nodup h₁ h₂ he
  have haddrinj : ∀ c₁ ∈ store.contracts, ∀ c₂ ∈ store.contracts,
      c₁.chain_id = cid → c₂.chain_id = cid → c₁.address = c₂.address → c₁ = c₂ := by
    intro c₁ h₁ c₂ h₂ hch₁ hch₂ hae
    have m₁ : c₁ ∈ store.contracts.filter (fun c => c.chain_id == cid) :=
      List.mem_filter.mpr ⟨h₁, by simp [hch₁]⟩
    have m₂ : c₂ ∈ store.contracts.filter (fun c => c.chain_id == cid) :=
      List.mem_filter.mpr ⟨h₂, by simp [hch₂]⟩
    exact List.inj_on_of_nodup_map hwf.addrs_nodup m₁ m₂ hae
  have hsymm : Symmetric (fun a b : StorageRow => sameKey a b = false) := by
    intro a b hab
    apply Bool.eq_false_iff.mpr
    intro hc
    rw [sameKey_symm hc] at hab
    cases hab
  have harows_mem : ∀ kv ∈ addrQueryRows store
      ((dedupOn (sortBy (rowLE desc) (inRange store cid lo hi))).map
        (fun r => (r.contract_id, r.slot, col r))),
      ∃ c ∈ store.contracts, kv = (c.id, c.address) := by
    intro kv hkv
    simp only [addrQueryRows, List.mem_map, List.mem_filter] at hkv
    obtain ⟨c, ⟨hc, _⟩, hkveq⟩ := hkv
    exact ⟨c, hc, hkveq.symm⟩
  have h20 : ∀ kv ∈ addrQueryRows store
      ((dedupOn (sortBy (rowLE desc) (inRange store cid lo hi))).map
        (fun r => (r.contract_id, r.slot, col r))), kv.2.length = 20 := by
    intro kv hkv
    obtain ⟨c, hc, hkveq⟩ := harows_mem kv hkv
    rw [hkveq]
    exact hwf.addr_len c hc
  have harows_nodup : ((addrQueryRows store
      ((dedupOn (sortBy (rowLE desc) (inRange store cid lo hi))).map
        (fun r => (r.contract_id, r.slot, col r)))).map (fun p => p.1)).Nodup := by
    have heq : (addrQueryRows store
        ((dedupOn (sortBy (rowLE desc) (inRange store cid lo hi))).map
          (fun r => (r.contract_id, r.slot, col r)))).map (fun p => p.1) =
        (store.contracts.filter (fun c =>
          ((dedupOn (sortBy (rowLE desc) (inRange store cid lo hi))).map
            (fun r => (r.contract_id, r.slot, col r))).any (fun t => t.1 == c.id))).map
          (fun c => c.id) := by
      rw [addrQueryRows, List.map_map]
      rfl
    rw [heq]
    exact List.Sublist.nodup (List.Sublist.map _ (List.filter_sublist _)) hwf.ids_nodup
  have hdecode : decodeAddresses (addrQueryRows store
      ((dedupOn (sortBy (rowLE desc) (inRange store cid lo hi))).map
        (fun r => (r.contract_id, r.slot, col r)))) =
      .ok (addrQueryRows store
        ((dedupOn (sortBy (rowLE desc) (inRange store cid lo hi))).map
          (fun r => (r.contract_id, r.slot, col r)))) := by
    have h := decodeAddressesGo_ok_append _ [] h20 (by simpa using harows_nodup)
    simpa [decodeAddresses] using h
  have hlook : ∀ r' ∈ dedupOn (sortBy (rowLE desc) (inRange store cid lo hi)),
      ∃ c' ∈ store.contracts, c'.id = r'.contract_id ∧ c'.chain_id = cid ∧
        lookupA r'.contract_id (addrQueryRows store
          ((dedupOn (sortBy (rowLE desc) (inRange store cid lo hi))).map
            (fun r => (r.contract_id, r.slot, col r)))) = some c'.address := by
    intro r' hr'
    obtain ⟨c', hc', hcid, hchain⟩ := hrows_c r' (hout_rows r' hr')
    refine ⟨c', hc', hcid, hchain, ?_⟩
    have hpair : (r'.contract_id, c'.address) ∈ addrQueryRows store
        ((dedupOn (sortBy (rowLE desc) (inRange store cid lo hi))).map
          (fun r => (r.contract_id, r.slot, col r))) := by
      simp only [addrQueryRows, List.mem_map]
      refine ⟨c', List.mem_filter.mpr ⟨hc', ?_⟩, by rw [hcid]⟩
      simp only [List.any_eq_true]
      exact ⟨(r'.contract_id, r'.slot, col r'), List.mem_map_of_mem _ hr', by simp [hcid]⟩
    exact lookupA_mem_of_nodup _ harows_nodup _ _ hpair
  have hok : ∀ t ∈ (dedupOn (sortBy (rowLE desc) (inRange store cid lo hi))).map
      (fun r => (r.contract_id, r.slot, col r)),
      (∃ a, lookupA t.1 (addrQueryRows store
        ((dedupOn (sortBy (rowLE desc) (inRange store cid lo hi))).map
          (fun r => (r.contract_id, r.slot, col r)))) = some a) ∧
      t.2.1.length = 32 ∧ (∀ v, t.2.2 = some v → v.length = 32) := by
    intro t ht
    obtain ⟨r', hr', hteq⟩ := List.mem_map.mp ht
    obtain ⟨c', hc', hcid, hchain, hl⟩ := hlook r' hr'
    subst hteq
    refine ⟨⟨c'.address, hl⟩, ?_, ?_⟩
    · exact hwf.slot_len r' (hrows_cs r' (hout_rows r' hr'))
    · intro v hv
      exact hcol r' (hrows_cs r' (hout_rows r' hr')) v hv
  have hdist : List.Pairwise (fun t t' =>
      ¬(lookupA t.1 (addrQueryRows store
          ((dedupOn (sortBy (rowLE desc) (inRange store cid lo hi))).map
            (fun r => (r.contract_id, r.slot, col r)))) =
        lookupA t'.1 (addrQueryRows store
          ((dedupOn (sortBy (rowLE desc) (inRange store cid lo hi))).map
            (fun r => (r.contract_id, r.slot, col r)))) ∧
        fromBigEndian t.2.1 = fromBigEndian t'.2.1))
      ((dedupOn (sortBy (rowLE desc) (inRange store cid lo hi))).map
        (fun r => (r.contract_id, r.slot, col r))) := by
    rw [List.pairwise_map]
    apply List.Pairwise.imp_of_mem ?_ (dedupOn_keys _)
    intro r₁ r₂ h₁ h₂ hkey hc
    obtain ⟨c₁, hc₁, hcid₁, hch₁, hl₁⟩ := hlook r₁ h₁
    obtain ⟨c₂, hc₂, hcid₂, hch₂, hl₂⟩ := hlook r₂ h₂
    have haddr : c₁.address = c₂.address := by
      have h' : some c₁.address = some c₂.address := by
        rw [← hl₁, ← hl₂]
        exact hc.1
      injection h'
    have hceq : c₁ = c₂ := haddrinj c₁ hc₁ c₂ hc₂ hch₁ hch₂ haddr
    have hkid : r₁.contract_id = r₂.contract_id := by
      rw [← hcid₁, ← hcid₂, hceq]
    have hslot : r₁.slot = r₂.slot := by
      apply fromBigEndian_inj r₁.slot r₂.slot ?len ?b1 ?b2 hc.2
      case len =>
        rw [hwf.slot_len r₁ (hrows_cs r₁ (hout_rows r₁ h₁)),
          hwf.slot_len r₂ (hrows_cs r₂ (hout_rows r₂ h₂))]
      case b1 => exact hwf.slot_bytes r₁ (hrows_cs r₁ (hout_rows r₁ h₁))
      case b2 => exact hwf.slot_bytes r₂ (hrows_cs r₂ (hout_rows r₂ h₂))
    have hsk : sameKey r₁ r₂ = true := (sameKey_iff _ _).mpr ⟨hkid, hslot⟩
    rw [hsk] at hkey
    cases hkey
  obtain ⟨m, hm, hchar⟩ := buildResultGo_lookup _ _ [] hok hdist
  have hnodups := buildResultGo_nodup _ _ [] m hm (by simp) (by simp)
  refine ⟨m, hdecode, hm, ?_, ?_, hnodups⟩
  · intro r hr
    obtain ⟨rep, hrep, hkrep⟩ := dedupOn_cover _ r
      ((mem_sortBy_rows desc (inRange store cid lo hi) r).mpr hr)
    refine ⟨rep, hout_rows rep hrep, hkrep, ?_, ?_⟩
    · intro r2 hr2 hk2
      exact dedupOn_min desc _ (pairwise_sortBy_rows desc _) rep hrep r2
        ((mem_sortBy_rows desc (inRange store cid lo hi) r2).mpr hr2) hk2
    · intro c hc hcid
      rw [hchar c.address (fromBigEndian r.slot)]
      obtain ⟨crep, hcrep, hcidrep, hchrep, hlrep⟩ := hlook rep hrep
      have hkey := (sameKey_iff rep r).mp hkrep
      have hceq : c = crep := hidinj c hc crep hcrep (by rw [hcid, hcidrep, hkey.1])
      have hfind : ((dedupOn (sortBy (rowLE desc) (inRange store cid lo hi))).map
          (fun r => (r.contract_id, r.slot, col r))).find? (fun t =>
            lookupA t.1 (addrQueryRows store
              ((dedupOn (sortBy (rowLE desc) (inRange store cid lo hi))).map
                (fun r => (r.contract_id, r.slot, col r)))) == some c.address &&
            fromBigEndian t.2.1 == fromBigEndian r.slot) =
          some (rep.contract_id, rep.slot, col rep) := by
        apply find?_eq_some_unique _ _ _ (List.mem_map_of_mem _ hrep)
        · simp only [Bool.and_eq_true, beq_iff_eq]
          constructor
          · rw [hlrep, hceq]
          · rw [hkey.2]
        · intro t' ht' hp'
          obtain ⟨r'', hr'', ht''⟩ := List.mem_map.mp ht'
          subst ht''
          simp only [Bool.and_eq_true, beq_iff_eq] at hp'
          obtain ⟨c'', hc'', hcid'', hch'', hl''⟩ := hlook r'' hr''
          have haddr'' : c''.address = c.address := by
            have h' : some c''.address = some c.address := by
              rw [← hl'']
              exact hp'.1
            injection h'
          have hceq'' : c'' = c := haddrinj c'' hc'' c hc hch''
            (by rw [hceq]; exact hchrep) haddr''
          have hrid : r''.contract_id = rep.contract_id := by
            rw [← hcid'', hceq'', hcid, hkey.1]
          have hrslot : r''.slot = rep.slot := by
            apply fromBigEndian_inj r''.slot rep.slot ?len ?b1 ?b2
            case len =>
              rw [hwf.slot_len r'' (hrows_cs r'' (hout_rows r'' hr'')),
                hwf.slot_len rep (hrows_cs rep (hout_rows rep hrep))]
            case b1 => exact hwf.slot_bytes r'' (hrows_cs r'' (hout_rows r'' hr''))
            case b2 => exact hwf.slot_bytes rep (hrows_cs rep (hout_rows rep hrep))
            rw [hkey.2]
            exact hp'.2
          by_cases hre : r'' = rep
          · rw [hre]
          · have hsk : sameKey r'' rep = false :=
              List.Pairwise.forall hsymm (dedupOn_keys _) hr'' hrep hre
            rw [(sameKey_iff r'' rep).mpr ⟨hrid, hrslot⟩] at hsk
            cases hsk
      rw [hfind]
  · intro addr k v hlkv
    rw [hchar addr k] at hlkv
    cases hfind : ((dedupOn (sortBy (rowLE desc) (inRange store cid lo hi))).map
        (fun r => (r.contract_id, r.slot, col r))).find? (fun t =>
          lookupA t.1 (addrQueryRows store
            ((dedupOn (sortBy (rowLE desc) (inRange store cid lo hi))).map
              (fun r => (r.contract_id, r.slot, col r)))) == some addr &&
          fromBigEndian t.2.1 == k) with
    | none =>
      rw [hfind] at hlkv
      exact Option.noConfusion hlkv
    | some t =>
      rw [hfind] at hlkv
      have ht := List.mem_of_find?_eq_some hfind
      have hpt := List.find?_some hfind
      obtain ⟨r'', hr'', hteq⟩ := List.mem_map.mp ht
      rw [← hteq] at hpt hlkv
      simp only [Bool.and_eq_true, beq_iff_eq] at hpt
      obtain ⟨c'', hc'', hcid'', hch'', hl''⟩ := hlook r'' hr''
      have haddr'' : c''.address = addr := by
        have h' : some c''.address = some addr := by
          rw [← hl'']
          exact hpt.1
        injection h'
      refine ⟨r'', hout_rows r'' hr'', c'', hc'', hcid'', haddr'', hpt.2, ?_⟩
      injection hlkv with hv
      exact hv.symm

/-- Under resolved versions and a fault-free store, `get_slots_delta` reduces
to address decoding plus result building over the directional query. -/
theorem gsd_eq (store astore : Store) (g : Chain → Int) (chain : Chain)
    (vs vt : Option BlockOrTimestamp) (now ts_s ts_t : Int)
    (hs : version_to_ts store now vs = .ok ts_s)
    (ht : version_to_ts store now vt = .ok ts_t) :
    get_slots_delta store astore noFaults g chain vs vt now =
      (match decodeAddresses (addrQueryRows astore
          (changedTriples store (g chain) ts_s ts_t)) with
       | .error e => .err e
       | .ok contract_addresses =>
         match buildResult (changedTriples store (g chain) ts_s ts_t)
             contract_addresses with
         | .error e => .err e
         | .ok result => .ok result) := by
  unfold get_slots_delta changedTriples
  rw [hs, ht]
  rfl

theorem gsd_ok_iff (store astore : Store) (g : Chain → Int) (chain : Chain)
    (vs vt : Option BlockOrTimestamp) (now ts_s ts_t : Int)
    (hs : version_to_ts store now vs = .ok ts_s)
    (ht : version_to_ts store now vt = .ok ts_t) (m : List (Bytes × List (Nat × Nat))) :
    get_slots_delta store astore noFaults g chain vs vt now = .ok m ↔
      ∃ A, decodeAddresses (addrQueryRows astore
          (changedTriples store (g chain) ts_s ts_t)) = .ok A ∧
        buildResult (changedTriples store (g chain) ts_s ts_t) A = .ok m := by
  rw [gsd_eq store astore g chain vs vt now ts_s ts_t hs ht]
  cases hd : decodeAddresses (addrQueryRows astore
      (changedTriples store (g chain) ts_s ts_t)) with
  | error e =>
    constructor
    · intro h
      exact Outcome.noConfusion h
    · intro ⟨A, hA, _⟩
      exact Except.noConfusion hA
  | ok A =>
    have hred : (match (Except.ok A : Except StorageError (List (Int × Bytes))) with
        | Except.error e => (Outcome.err e : Outcome (List (Bytes × List (Nat × Nat))))
        | Except.ok contract_addresses =>
          match buildResult (changedTriples store (g chain) ts_s ts_t)
              contract_addresses with
          | Except.error e => Outcome.err e
          | Except.ok result => Outcome.ok result) =
        (match buildResult (changedTriples store (g chain) ts_s ts_t) A with
         | Except.error e => Outcome.err e
         | Except.ok result => Outcome.ok result) := rfl
    rw [hred]
    cases hb : buildResult (changedTriples store (g chain) ts_s ts_t) A with
    | error e =>
      constructor
      · intro h
        exact Outcome.noConfusion h
      · intro ⟨A', hA', hB'⟩
        injection hA' with h'
        rw [← h', hb] at hB'
        cases hB'
    | ok m' =>
      constructor
      · intro h
        injection h with h'
        exact ⟨A, rfl, by rw [hb, h']⟩
      · intro ⟨A', hA', hB'⟩
        injection hA' with h'
        rw [← h', hb] at hB'
        injection hB' with h''
        rw [h'']

theorem gsd_err_decode (store astore : Store) (g : Chain → Int) (chain : Chain)
    (vs vt : Option BlockOrTimestamp) (now ts_s ts_t : Int)
    (hs : version_to_ts store now vs = .ok ts_s)
    (ht : version_to_ts store now vt = .ok ts_t)
    (hne : ∀ m, get_slots_delta store astore noFaults g chain vs vt now ≠ .ok m) :
    ∃ msg, get_slots_delta store astore noFaults g chain vs vt now =
      .err (.decodeError msg) := by
  rw [gsd_eq store astore g chain vs vt now ts_s ts_t hs ht] at hne ⊢
  cases hd : decodeAddresses (addrQueryRows astore
      (changedTriples store (g chain) ts_s ts_t)) with
  | error e =>
    obtain ⟨msg, hmsg⟩ := decodeAddressesGo_err _ [] e hd
    subst hmsg
    exact ⟨msg, rfl⟩
  | ok A =>
    have hred : (match (Except.ok A : Except StorageError (List (Int × Bytes))) with
        | Except.error e => (Outcome.err e : Outcome (List (Bytes × List (Nat × Nat))))
        | Except.ok contract_addresses =>
          match buildResult (changedTriples store (g chain) ts_s ts_t)
              contract_addresses with
          | Except.error e => Outcome.err e
          | Except.ok result => Outcome.ok result) =
        (match buildResult (changedTriples store (g chain) ts_s ts_t) A with
         | Except.error e => Outcome.err e
         | Except.ok result => Outcome.ok result) := rfl
    rw [hd] at hne
    rw [hred] at hne ⊢
    cases hb : buildResult (changedTriples store (g chain) ts_s ts_t) A with
    | error e =>
      obtain ⟨msg, hmsg⟩ := buildResultGo_err A _ [] e hb
      subst hmsg
      exact ⟨msg, rfl⟩
    | ok m' =>
      rw [hb] at hne
      exact absurd rfl (hne m')

/-! ## Claim theorems (delta algorithm) -/

/-- C5: every slot key appearing in the rows obtained by the call is exactly
32 bytes and every present slot value is exactly 32 bytes whenever the call
succeeds; and a single violating row makes the entire call return a
`DecodeError` — no partial result map is ever returned. -/
theorem slot_validation_whole_call (store astore : Store) (g : Chain → Int)
    (chain : Chain) (vs vt : Option BlockOrTimestamp) (now ts_s ts_t : Int)
    (hs : version_to_ts store now vs = .ok ts_s)
    (ht : version_to_ts store now vt = .ok ts_t) :
    (∀ m, get_slots_delta store astore noFaults g chain vs vt now = .ok m →
      ∀ t ∈ changedTriples store (g chain) ts_s ts_t,
        t.2.1.length = 32 ∧ ∀ v, t.2.2 = some v → v.length = 32) ∧
    ((∃ t ∈ changedTriples store (g chain) ts_s ts_t,
        t.2.1.length ≠ 32 ∨ ∃ v, t.2.2 = some v ∧ v.length ≠ 32) →
      ∃ msg, get_slots_delta store astore noFaults g chain vs vt now =
        .err (.decodeError msg)) := by
  constructor
  · intro m hok t ht'
    obtain ⟨A, hA, hB⟩ :=
      (gsd_ok_iff store astore g chain vs vt now ts_s ts_t hs ht m).mp hok
    have hc := buildResultGo_ok_conds A _ [] m hB t ht'
    exact ⟨hc.2.1, hc.2.2⟩
  · intro ⟨t, ht', hbad⟩
    apply gsd_err_decode store astore g chain vs vt now ts_s ts_t hs ht
    intro m hok
    obtain ⟨A, hA, hB⟩ :=
      (gsd_ok_iff store astore g chain vs vt now ts_s ts_t hs ht m).mp hok
    have hc := buildResultGo_ok_conds A _ [] m hB t ht'
    rcases hbad with hbad | ⟨v, hv, hvl⟩
    · exact hbad hc.2.1
    · exact hvl (hc.2.2 v hv)

/-- C5 witness: on the well-formed fixture every returned row passes the
length checks, and on the fixture holding a 31-byte slot value the whole call
returns a `DecodeError`. -/
theorem slot_validation_whole_call_witness :
    (∀ t ∈ changedTriples tStore (getCid1 Chain.ethereum) 0 3,
      t.2.1.length = 32 ∧ ∀ v, t.2.2 = some v → v.length = 32) ∧
    ∃ msg, get_slots_delta badValStore badValStore noFaults getCid1 .ethereum
      (some (.timestamp 0)) (some (.timestamp 3)) 0 = .err (.decodeError msg) := by
  constructor
  · obtain ⟨m, hm⟩ : ∃ m, get_slots_delta tStore tStore noFaults getCid1 .ethereum
        (some (.timestamp 0)) (some (.timestamp 3)) 0 = .ok m := ⟨_, rfl⟩
    exact (slot_validation_whole_call tStore tStore getCid1 .ethereum
      (some (.timestamp 0)) (some (.timestamp 3)) 0 0 3 rfl rfl).1 m hm
  · exact (slot_validation_whole_call badValStore badValStore getCid1 .ethereum
      (some (.timestamp 0)) (some (.timestamp 3)) 0 0 3 rfl rfl).2
      ⟨(1, toBEbytes 32 0, some (List.replicate 31 1)), by decide,
        Or.inr ⟨List.replicate 31 1, rfl, by decide⟩⟩

/-- C6: the batch address lookup surfaces integrity problems as errors — if
the snapshot seen by the address query has no contract record for a contract
id referenced by a change row, or a stored address of a referenced contract
is not exactly 20 bytes, the whole call returns a `DecodeError`; and whenever
the call succeeds, every referenced contract id did resolve to a 20-byte
address (nothing is silently dropped). -/
theorem address_resolution_errors (store astore : Store) (g : Chain → Int)
    (chain : Chain) (vs vt : Option BlockOrTimestamp) (now ts_s ts_t : Int)
    (hs : version_to_ts store now vs = .ok ts_s)
    (ht : version_to_ts store now vt = .ok ts_t) :
    ((∃ t ∈ changedTriples store (g chain) ts_s ts_t,
        ∀ c ∈ astore.contracts, c.id ≠ t.1) →
      ∃ msg, get_slots_delta store astore noFaults g chain vs vt now =
        .err (.decodeError msg)) ∧
    ((∃ c ∈ astore.contracts, c.address.length ≠ 20 ∧
        ∃ t ∈ changedTriples store (g chain) ts_s ts_t, t.1 = c.id) →
      ∃ msg, get_slots_delta store astore noFaults g chain vs vt now =
        .err (.decodeError msg)) ∧
    (∀ m, get_slots_delta store astore noFaults g chain vs vt now = .ok m →
      ∀ t ∈ changedTriples store (g chain) ts_s ts_t,
        ∃ c ∈ astore.contracts, c.id = t.1 ∧ c.address.length = 20) := by
  refine ⟨?_, ?_, ?_⟩
  · intro ⟨t, ht', hmiss⟩
    apply gsd_err_decode store astore g chain vs vt now ts_s ts_t hs ht
    intro m hok
    obtain ⟨A, hA, hB⟩ :=
      (gsd_ok_iff store astore g chain vs vt now ts_s ts_t hs ht m).mp hok
    obtain ⟨⟨a, hla⟩, -, -⟩ := buildResultGo_ok_conds A _ [] m hB t ht'
    have hmem := (decodeAddressesGo_ok_mem _ [] A hA).2 t.1 a hla
    rcases hmem with hmem | hmem
    · simp only [addrQueryRows, List.mem_map, List.mem_filter] at hmem
      obtain ⟨c, ⟨hc, -⟩, hceq⟩ := hmem
      exact hmiss c hc (congrArg Prod.fst hceq)
    · exact Option.noConfusion hmem
  · intro ⟨c, hc, hlen, t, ht', hteq⟩
    apply gsd_err_decode store astore g chain vs vt now ts_s ts_t hs ht
    intro m hok
    obtain ⟨A, hA, hB⟩ :=
      (gsd_ok_iff store astore g chain vs vt now ts_s ts_t hs ht m).mp hok
    have hall := (decodeAddressesGo_ok_mem _ [] A hA).1
    have hmem : (c.id, c.address) ∈ addrQueryRows astore
        (changedTriples store (g chain) ts_s ts_t) := by
      simp only [addrQueryRows, List.mem_map]
      refine ⟨c, List.mem_filter.mpr ⟨hc, ?_⟩, rfl⟩
      simp only [List.any_eq_true]
      exact ⟨t, ht', by simp [hteq]⟩
    exact hlen (hall _ hmem)
  · intro m hok t ht'
    obtain ⟨A, hA, hB⟩ :=
      (gsd_ok_iff store astore g chain vs vt now ts_s ts_t hs ht m).mp hok
    obtain ⟨⟨a, hla⟩, -, -⟩ := buildResultGo_ok_conds A _ [] m hB t ht'
    have hmem := (decodeAddressesGo_ok_mem _ [] A hA).2 t.1 a hla
    rcases hmem with hmem | hmem
    · have hall := (decodeAddressesGo_ok_mem _ [] A hA).1 _ hmem
      simp only [addrQueryRows, List.mem_map, List.mem_filter] at hmem
      obtain ⟨c, ⟨hc, -⟩, hceq⟩ := hmem
      refine ⟨c, hc, congrArg Prod.fst hceq, ?_⟩
      have hca : c.address = a := congrArg Prod.snd hceq
      rw [hca]
      exact hall
    · exact Option.noConfusion hmem

/-- C6 witness: a change row whose contract id has no record in the snapshot
the address query sees yields a `DecodeError`, as does a referenced contract
with a 19-byte stored address. -/
theorem address_resolution_errors_witness :
    (∃ msg, get_slots_delta tStore emptyContractsStore noFaults getCid1 .ethereum
      (some (.timestamp 0)) (some (.timestamp 3)) 0 = .err (.decodeError msg)) ∧
    ∃ msg, get_slots_delta tStore shortAddrStore noFaults getCid1 .ethereum
      (some (.timestamp 0)) (some (.timestamp 3)) 0 = .err (.decodeError msg) := by
  constructor
  · exact (address_resolution_errors tStore emptyContractsStore getCid1 .ethereum
      (some (.timestamp 0)) (some (.timestamp 3)) 0 0 3 rfl rfl).1
      ⟨(1, toBEbytes 32 0, some (toBEbytes 32 2)), by decide, by decide⟩
  · exact (address_resolution_errors tStore shortAddrStore getCid1 .ethereum
      (some (.timestamp 0)) (some (.timestamp 3)) 0 0 3 rfl rfl).2.1
      ⟨{ id := 1, chain_id := 1, address := List.replicate 19 7 }, by decide,
        by decide, (1, toBEbytes 32 0, some (toBEbytes 32 2)), by decide, by decide⟩

/-- C1: forward direction (`t_s <= t_t`): the call succeeds and its result
maps each `(contract, slot)` having at least one change row with `valid_from`
in `(t_s, t_t]` to the decoded `value` column of the group's row with the
greatest `(valid_from, ordinal)`, with exactly one net entry per changed slot,
and contains nothing for unchanged slots. -/
theorem forward_delta_correct (store : Store) (g : Chain → Int) (chain : Chain)
    (vs vt : Option BlockOrTimestamp) (now ts_s ts_t : Int)
    (hs : version_to_ts store now vs = .ok ts_s)
    (ht : version_to_ts store now vt = .ok ts_t)
    (hdir : ts_s ≤ ts_t) (hwf : WfStore store (g chain)) :
    ∃ m, get_slots_delta store store noFaults g chain vs vt now = .ok m ∧
      (∀ r ∈ inRange store (g chain) ts_s ts_t,
        ∃ rmax ∈ inRange store (g chain) ts_s ts_t, sameKey rmax r = true ∧
          (∀ r2 ∈ inRange store (g chain) ts_s ts_t, sameKey rmax r2 = true →
            keyLe r2 rmax) ∧
          ∀ c ∈ store.contracts, c.id = r.contract_id →
            lookup2 m c.address (fromBigEndian r.slot) = some (decodeVal rmax.value)) ∧
      (∀ (addr : Bytes) (k v : Nat), lookup2 m addr k = some v →
        ∃ r ∈ inRange store (g chain) ts_s ts_t, ∃ c ∈ store.contracts,
          c.id = r.contract_id ∧ c.address = addr ∧ fromBigEndian r.slot = k ∧
          v = decodeVal r.value) ∧
      ((m.map (fun p => p.1)).Nodup ∧ ∀ p ∈ m, (p.2.map (fun q => q.1)).Nodup) := by
  obtain ⟨m, hA, hB, hgroups, hcompl, hnodups⟩ :=
    delta_pipeline_correct true (fun r => r.value) store (g chain) ts_s ts_t hwf
      (fun r hr v hv => hwf.value_len r hr v hv)
  have htr : changedTriples store (g chain) ts_s ts_t =
      (dedupOn (sortBy (rowLE true) (inRange store (g chain) ts_s ts_t))).map
        (fun r => (r.contract_id, r.slot, (fun r => r.value) r)) := by
    unfold changedTriples
    rw [if_pos hdir]
    rfl
  refine ⟨m, ?_, ?_, ?_, hnodups⟩
  · apply (gsd_ok_iff store store g chain vs vt now ts_s ts_t hs ht m).mpr
    refine ⟨addrQueryRows store
      ((dedupOn (sortBy (rowLE true) (inRange store (g chain) ts_s ts_t))).map
        (fun r => (r.contract_id, r.slot, r.value))), ?_, ?_⟩
    · rw [htr]
      exact hA
    · rw [htr]
      exact hB
  · intro r hr
    obtain ⟨rep, hrep, hk, hmin, hlk⟩ := hgroups r hr
    refine ⟨rep, hrep, hk, ?_, hlk⟩
    intro r2 hr2 hk2
    exact keyLe_of_rowLE_true rep r2 hk2 (hmin r2 hr2 hk2)
  · exact hcompl

/-- C1 witness: the forward fixture query (the source's own forward test
scenario). -/
theorem forward_delta_correct_witness :
    ∃ m, get_slots_delta tStore tStore noFaults getCid1 Chain.ethereum
        (some (.timestamp 0)) (some (.timestamp 3)) 0 = .ok m ∧
      (∀ r ∈ inRange tStore (getCid1 Chain.ethereum) 0 3,
        ∃ rmax ∈ inRange tStore (getCid1 Chain.ethereum) 0 3, sameKey rmax r = true ∧
          (∀ r2 ∈ inRange tStore (getCid1 Chain.ethereum) 0 3, sameKey rmax r2 = true →
            keyLe r2 rmax) ∧
          ∀ c ∈ tStore.contracts, c.id = r.contract_id →
            lookup2 m c.address (fromBigEndian r.slot) = some (decodeVal rmax.value)) ∧
      (∀ (addr : Bytes) (k v : Nat), lookup2 m addr k = some v →
        ∃ r ∈ inRange tStore (getCid1 Chain.ethereum) 0 3, ∃ c ∈ tStore.contracts,
          c.id = r.contract_id ∧ c.address = addr ∧ fromBigEndian r.slot = k ∧
          v = decodeVal r.value) ∧
      ((m.map (fun p => p.1)).Nodup ∧ ∀ p ∈ m, (p.2.map (fun q => q.1)).Nodup) :=
  forward_delta_correct tStore getCid1 Chain.ethereum
    (some (.timestamp 0)) (some (.timestamp 3)) 0 0 3 rfl rfl (by decide)
    ⟨by decide, by decide, by decide, by decide, by decide, by decide, by decide⟩

/-- C2: backward direction (`t_s > t_t`): the call succeeds and its result
maps each `(contract, slot)` having at least one change row with `valid_from`
in `(t_t, t_s]` to the decoded `previous_value` column of the group's first
row in ascending `(valid_from, ordinal)` order (an absent `previous_value`
decoding to zero), with exactly one entry per changed slot and nothing for
unchanged slots. -/
theorem backward_delta_correct (store : Store) (g : Chain → Int) (chain : Chain)
    (vs vt : Option BlockOrTimestamp) (now ts_s ts_t : Int)
    (hs : version_to_ts store now vs = .ok ts_s)
    (ht : version_to_ts store now vt = .ok ts_t)
    (hdir : ts_t < ts_s) (hwf : WfStore store (g chain)) :
    ∃ m, get_slots_delta store store noFaults g chain vs vt now = .ok m ∧
      (∀ r ∈ inRange store (g chain) ts_t ts_s,
        ∃ rmin ∈ inRange store (g chain) ts_t ts_s, sameKey rmin r = true ∧
          (∀ r2 ∈ inRange store (g chain) ts_t ts_s, sameKey rmin r2 = true →
            keyLe rmin r2) ∧
          ∀ c ∈ store.contracts, c.id = r.contract_id →
            lookup2 m c.address (fromBigEndian r.slot) =
              some (decodeVal rmin.previous_value)) ∧
      (∀ (addr : Bytes) (k v : Nat), lookup2 m addr k = some v →
        ∃ r ∈ inRange store (g chain) ts_t ts_s, ∃ c ∈ store.contracts,
          c.id = r.contract_id ∧ c.address = addr ∧ fromBigEndian r.slot = k ∧
          v = decodeVal r.previous_value) ∧
      ((m.map (fun p => p.1)).Nodup ∧ ∀ p ∈ m, (p.2.map (fun q => q.1)).Nodup) := by
  obtain ⟨m, hA, hB, hgroups, hcompl, hnodups⟩ :=
    delta_pipeline_correct false (fun r => r.previous_value) store (g chain) ts_t ts_s hwf
      (fun r hr v hv => hwf.prev_len r hr v hv)
  have htr : changedTriples store (g chain) ts_s ts_t =
      (dedupOn (sortBy (rowLE false) (inRange store (g chain) ts_t ts_s))).map
        (fun r => (r.contract_id, r.slot, (fun r => r.previous_value) r)) := by
    unfold changedTriples
    rw [if_neg (by omega)]
    rfl
  refine ⟨m, ?_, ?_, ?_, hnodups⟩
  · apply (gsd_ok_iff store store g chain vs vt now ts_s ts_t hs ht m).mpr
    refine ⟨addrQueryRows store
      ((dedupOn (sortBy (rowLE false) (inRange store (g chain) ts_t ts_s))).map
        (fun r => (r.contract_id, r.slot, r.previous_value))), ?_, ?_⟩
    · rw [htr]
      exact hA
    · rw [htr]
      exact hB
  · intro r hr
    obtain ⟨rep, hrep, hk, hmin, hlk⟩ := hgroups r hr
    refine ⟨rep, hrep, hk, ?_, hlk⟩
    intro r2 hr2 hk2
    exact keyLe_of_rowLE_false rep r2 hk2 (hmin r2 hr2 hk2)
  · exact hcompl

/-- C2 witness: the backward fixture query (the source's own backward test
scenario). -/
theorem backward_delta_correct_witness :
    ∃ m, get_slots_delta tStore tStore noFaults getCid1 Chain.ethereum
        (some (.timestamp 3)) (some (.timestamp 0)) 0 = .ok m ∧
      (∀ r ∈ inRange tStore (getCid1 Chain.ethereum) 0 3,
        ∃ rmin ∈ inRange tStore (getCid1 Chain.ethereum) 0 3, sameKey rmin r = true ∧
          (∀ r2 ∈ inRange tStore (getCid1 Chain.ethereum) 0 3, sameKey rmin r2 = true →
            keyLe rmin r2) ∧
          ∀ c ∈ tStore.contracts, c.id = r.contract_id →
            lookup2 m c.address (fromBigEndian r.slot) =
              some (decodeVal rmin.previous_value)) ∧
      (∀ (addr : Bytes) (k v : Nat), lookup2 m addr k = some v →
        ∃ r ∈ inRange tStore (getCid1 Chain.ethereum) 0 3, ∃ c ∈ tStore.contracts,
          c.id = r.contract_id ∧ c.address = addr ∧ fromBigEndian r.slot = k ∧
          v = decodeVal r.previous_value) ∧
      ((m.map (fun p => p.1)).Nodup ∧ ∀ p ∈ m, (p.2.map (fun q => q.1)).Nodup) :=
  backward_delta_correct tStore getCid1 Chain.ethereum
    (some (.timestamp 3)) (some (.timestamp 0)) 0 3 0 rfl rfl (by decide)
    ⟨by decide, by decide, by decide, by decide, by decide, by decide, by decide⟩

/-! ## Round-trip helper lemmas -/

theorem iAsU_uAsI (w n : Nat) (h : n < 2 ^ w) : iAsU w (uAsI w n) = n := by
  unfold uAsI iAsU
  simp only [Int.ofNat_eq_coe]
  rw [Nat.mod_eq_of_lt h]
  have h0 : (0 : Int) ≤ (n : Int) := Int.natCast_nonneg n
  have h1 : ((n : Int)) < ((2 ^ w : Nat) : Int) := by exact_mod_cast h
  by_cases hc : n < 2 ^ (w - 1)
  · rw [if_pos hc, Int.emod_eq_of_lt h0 h1]
    omega
  · rw [if_neg hc]
    have h2 : (((n : Int)) - ((2 ^ w : Nat) : Int)) % ((2 ^ w : Nat) : Int) =
        ((n : Int)) % ((2 ^ w : Nat) : Int) := by
      rw [Int.sub_emod, Int.emod_self, Int.sub_zero, Int.emod_emod_of_dvd _ dvd_rfl]
    rw [h2, Int.emod_eq_of_lt h0 h1]
    omega

theorem tryDecodeU256_toBE (n : Nat) (h : n < 2 ^ 256) (name : String) :
    tryDecodeU256 (toBEbytes 32 n) name = .ok n := by
  unfold tryDecodeU256
  rw [if_pos (toBEbytes_length 32 n), fromBigEndian_toBEbytes]
  have h256 : (256 : Nat) ^ 32 = 2 ^ 256 := by
    nth_rewrite 1 [show (256 : Nat) = 2 ^ 8 by norm_num]
    rw [← pow_mul]
  rw [h256, Nat.mod_eq_of_lt h]

theorem foldl_insertA_eq {κ ν : Type} [DecidableEq κ] :
    ∀ (l acc : List (κ × ν)), (((acc ++ l).map (fun p => p.1)).Nodup) →
    l.foldl (fun m p => insertA p.1 p.2 m) acc = acc ++ l := by
  intro l
  induction l with
  | nil =>
    intro acc _
    simp
  | cons p t ih =>
    intro acc hnd
    rw [List.foldl_cons]
    have hfresh : ∀ q ∈ acc, q.1 ≠ p.1 := by
      intro q hq hc
      have hnd' := hnd
      rw [List.map_append, List.nodup_append] at hnd'
      exact hnd'.2.2 (List.mem_map_of_mem (fun q => q.1) hq)
        (by
          rw [hc]
          exact List.mem_map_of_mem (fun (q : κ × ν) => q.1) (List.mem_cons_self p t))
    rw [insertA_fresh p.1 p.2 acc hfresh]
    have hres := ih (acc ++ [(p.1, p.2)]) (by rw [List.append_assoc]; simpa using hnd)
    rw [hres, List.append_assoc]
    rfl

theorem convert_addresses_id (l : List Bytes) (h : ∀ b ∈ l, b.length = 20) :
    convert_addresses_to_h160 l = .ok l := by
  induction l with
  | nil => rfl
  | cons b t ih =>
    have hb : b.length = 20 := h b (List.mem_cons_self _ _)
    have hpad : pad_and_parse_h160 b = .ok b := by
      unfold pad_and_parse_h160
      rw [if_pos (by omega)]
      rw [hb]
      simp
    have ih' := ih (fun q hq => h q (List.mem_cons_of_mem _ hq))
    rw [convert_addresses_to_h160, hpad, ih']

theorem tryDecodeH256_ok (b : Bytes) (h : b.length = 32) (name : String) :
    tryDecodeH256 b name = .ok b := by
  unfold tryDecodeH256
  rw [if_pos h]

theorem tryDecodeH160_ok (b : Bytes) (h : b.length = 20) (name : String) :
    tryDecodeH160 b name = .ok b := by
  unfold tryDecodeH160
  rw [if_pos h]

theorem pad_and_parse_h160_exact (b : Bytes) (h : b.length = 20) :
    pad_and_parse_h160 b = .ok b := by
  unfold pad_and_parse_h160
  rw [if_pos (by omega), h]
  simp

/-! ## Claim theorems (mapping contracts) -/

/-- C4 counterexample: the round trip is not the identity on all semantic
fields. `StorableContract::from_storage` rebuilds an `evm::Account` with an
empty slot map, so an account with one populated slot does not survive; and
`StorableProtocolComponent::from_storage` rebuilds `protocol_type_name` as the
decimal rendering of the stored `protocol_type_id`, so a component named
`"ambient_pool"` comes back named `"42"`. -/
theorem round_trip_counterexample :
    evm.Account.from_storage (orm.Contract.ofNew (acct0.to_storage 1 0 none))
        acct0.chain acct0.balance_modify_tx acct0.code_modify_tx acct0.creation_tx ≠
      .ok acct0 ∧
    (match pc0.to_storage 1 2 42 0 4 with
     | .ok np =>
       evm.ProtocolComponent.from_storage (orm.ProtocolComponent.ofNew np)
         pc0.tokens pc0.contract_ids pc0.chain pc0.protocol_system pc0.creation_tx
     | .error e => .error e) ≠ .ok pc0 := by
  constructor
  · intro hc
    have hval : (match evm.Account.from_storage (orm.Contract.ofNew (acct0.to_storage 1 0 none))
          acct0.chain acct0.balance_modify_tx acct0.code_modify_tx acct0.creation_tx with
        | .ok a => a.slots
        | .error _ => [(1, 1)]) = ([] : List (Nat × Nat)) := rfl
    rw [hc] at hval
    simp [acct0] at hval
  · intro hc
    have hval : (match (match pc0.to_storage 1 2 42 0 4 with
        | .ok np =>
          evm.ProtocolComponent.from_storage (orm.ProtocolComponent.ofNew np)
            pc0.tokens pc0.contract_ids pc0.chain pc0.protocol_system pc0.creation_tx
        | .error e => (.error e : Except StorageError evm.ProtocolComponent)) with
        | .ok x => x.protocol_type_name
        | .error _ => "") = "42" := rfl
    rw [hc] at hval
    simp [pc0] at hval
    exact absurd hval (by decide)

/-- C4 amended: the round trip `from_storage (to_storage x) = x` holds on all
semantic fields for blocks, transactions, tokens, protocol types and protocol
state; for accounts it holds on all fields except `slots`, which
`from_storage` leaves empty (slots are restored separately through the
versioned slot store); for protocol components it holds on all fields except
`protocol_type_name` (rebuilt as the decimal form of the supplied
`protocol_type_id`) and `change` (reset to the default change type). Matching
context (foreign keys, hashes) is supplied to `from_storage` from the original
value. -/
theorem round_trip_amended :
    (∀ (b : evm.Block) (chain_id : Int), WfEvmBlock b →
      evm.Block.from_storage (orm.Block.ofNew (b.to_storage chain_id)) b.chain =
        .ok b) ∧
    (∀ (tx : evm.Transaction) (block_id : Int), WfEvmTransaction tx →
      evm.Transaction.from_storage (orm.Transaction.ofNew (tx.to_storage block_id))
        tx.block_hash = .ok tx) ∧
    (∀ (a : evm.Account) (chain_id creation_ts : Int) (tx_id : Option Int),
      WfEvmAccount a →
      evm.Account.from_storage (orm.Contract.ofNew (a.to_storage chain_id creation_ts tx_id))
        a.chain a.balance_modify_tx a.code_modify_tx a.creation_tx =
        .ok { a with slots := [] }) ∧
    (∀ (t : evm.ERC20Token) (contract_id : Int), WfEvmToken t →
      evm.ERC20Token.from_storage (orm.Token.ofNew (t.to_storage contract_id))
        { chain := t.chain, address := t.address } = .ok t) ∧
    (∀ pt : models.ProtocolType,
      models.ProtocolType.from_storage (orm.ProtocolType.ofNew pt.to_storage) = .ok pt) ∧
    (∀ (ps : evm.ProtocolState) (pcid tx_id block_ts : Int), WfEvmProtocolState ps →
      evm.ProtocolState.from_storage
        ((ps.to_storage pcid tx_id block_ts).map orm.ProtocolState.ofNew)
        ps.component_id ps.modify_tx = .ok ps) ∧
    (∀ (pc : evm.ProtocolComponent) (chain_id psid ptid ctx : Int),
      WfEvmProtocolComponent pc →
      ∃ np, pc.to_storage chain_id psid ptid ctx pc.created_at = .ok np ∧
        evm.ProtocolComponent.from_storage (orm.ProtocolComponent.ofNew np)
          pc.tokens pc.contract_ids pc.chain pc.protocol_system pc.creation_tx =
          .ok { pc with protocol_type_name := toString ptid,
                        change := evm.ChangeType.defaultValue }) := by
  refine ⟨?_, ?_, ?_, ?_, ?_, ?_, ?_⟩
  · intro b chain_id hwf
    obtain ⟨h1, h2, h3⟩ := hwf
    obtain ⟨num, hash, ph, chain, ts⟩ := b
    simp only [evm.Block.from_storage, evm.Block.to_storage, orm.Block.ofNew,
      tryDecodeH256] at *
    simp [h1, h2, iAsU_uAsI 64 num h3]
  · intro tx block_id hwf
    obtain ⟨h1, h2, h3, h4, h5⟩ := hwf
    obtain ⟨hash, bh, from_, to_, index⟩ := tx
    cases to_ with
    | none =>
      simp only [evm.Transaction.from_storage, evm.Transaction.to_storage,
        orm.Transaction.ofNew, tryDecodeH256, tryDecodeH160] at *
      simp [h1, h2, h3, iAsU_uAsI 64 index h5]
    | some t =>
      have ht20 : t.length = 20 := h4 t rfl
      have htne : t.isEmpty = false := by
        cases t with
        | nil => simp at ht20
        | cons x xs => rfl
      simp only [evm.Transaction.from_storage, evm.Transaction.to_storage,
        orm.Transaction.ofNew, tryDecodeH256, tryDecodeH160] at *
      simp [h1, h2, h3, ht20, htne, iAsU_uAsI 64 index h5, Except.map]
  · intro a chain_id creation_ts tx_id hwf
    obtain ⟨h1, h2, h3, h4, h5, h6⟩ := hwf
    obtain ⟨chain, addr, title, slots, bal, code, ch, btx, ctx2, crtx⟩ := a
    cases crtx with
    | none =>
      simp only [evm.Account.from_storage, evm.Account.to_storage, orm.Contract.ofNew,
        tryDecodeH256, tryDecodeH160, balanceFromU256] at *
      simp [h1, h3, h4, h5, tryDecodeU256_toBE bal h2]
    | some ct =>
      have hct : ct.length = 32 := h6 ct rfl
      simp only [evm.Account.from_storage, evm.Account.to_storage, orm.Contract.ofNew,
        tryDecodeH256, tryDecodeH160, balanceFromU256] at *
      simp [h1, h3, h4, h5, hct, tryDecodeU256_toBE bal h2, Except.map]
  · intro t contract_id hwf
    obtain ⟨h1, h2, h3, h4⟩ := hwf
    obtain ⟨addr, sym, dec, tax, gas, chain, q⟩ := t
    have hgas : ∀ g ∈ gas, Option.map (iAsU 64) (Option.map (uAsI 64) g) = g := by
      intro g hg
      cases g with
      | none => rfl
      | some n =>
        simp [iAsU_uAsI 64 n (h4 (some n) hg n rfl)]
    have hgas2 : (gas.map (fun item => item.map (uAsI 64))).map
        (fun item => item.map (iAsU 64)) = gas := by
      rw [List.map_map]
      calc gas.map ((fun item => item.map (iAsU 64)) ∘ (fun item => item.map (uAsI 64)))
          = gas.map id := List.map_congr_left (fun g hg => hgas g hg)
        _ = gas := List.map_id gas
    cases q <;>
      (simp only [evm.ERC20Token.from_storage, evm.ERC20Token.to_storage,
        orm.Token.ofNew] at *
       simp [pad_and_parse_h160_exact addr h1, iAsU_uAsI 32 dec h2,
         iAsU_uAsI 64 tax h3, hgas2])
  · intro pt
    obtain ⟨name, fin, sch, impl⟩ := pt
    cases fin <;> cases impl <;> rfl
  · intro ps pcid tx_id block_ts hwf
    obtain ⟨hnd, hlen⟩ := hwf
    obtain ⟨cidStr, attrs, mtx⟩ := ps
    have hts : evm.ProtocolState.to_storage ⟨cidStr, attrs, mtx⟩ pcid tx_id block_ts =
        attrs.map (fun nv =>
          ({ protocol_component_id := pcid, attribute_name := some nv.1,
             attribute_value := some nv.2, previous_value := none,
             modify_tx := tx_id, valid_from := block_ts,
             valid_to := none } : orm.NewProtocolState)) := by
      unfold evm.ProtocolState.to_storage
      rw [foldl_push_eq_map]
      simp
    rw [hts, List.map_map]
    unfold evm.ProtocolState.from_storage
    rw [tryDecodeH256_ok mtx hlen]
    have hfold : (attrs.map (orm.ProtocolState.ofNew ∘ (fun nv =>
        ({ protocol_component_id := pcid, attribute_name := some nv.1,
           attribute_value := some nv.2, previous_value := none,
           modify_tx := tx_id, valid_from := block_ts,
           valid_to := none } : orm.NewProtocolState)))).foldl
        (fun m val => insertA val.attribute_name val.attribute_value m) [] = attrs := by
      rw [List.foldl_map]
      exact foldl_insertA_eq attrs [] (by simpa using hnd)
    rw [hfold]
  · intro pc chain_id psid ptid ctx hwf
    obtain ⟨ht20, hc20⟩ := hwf
    refine ⟨_, rfl, ?_⟩
    obtain ⟨pid, psys, ptn, chain, tokens, cids, sattr, chg, crtx, cat2⟩ := pc
    simp only [evm.ProtocolComponent.from_storage, evm.ProtocolComponent.to_storage,
      orm.ProtocolComponent.ofNew, jsonOfAttributes, attributesOfJson] at *
    simp [convert_addresses_id tokens ht20, convert_addresses_id cids hc20]

/-- C4 witness: the amended round trip at the concrete fixtures. -/
theorem round_trip_amended_witness :
    evm.Block.from_storage (orm.Block.ofNew (blk0.to_storage 7)) blk0.chain = .ok blk0 ∧
    evm.Transaction.from_storage (orm.Transaction.ofNew (tx0.to_storage 3))
      tx0.block_hash = .ok tx0 ∧
    evm.Account.from_storage (orm.Contract.ofNew (acct0.to_storage 1 0 none))
      acct0.chain acct0.balance_modify_tx acct0.code_modify_tx acct0.creation_tx =
      .ok { acct0 with slots := [] } ∧
    evm.ERC20Token.from_storage (orm.Token.ofNew (tok0.to_storage 22))
      { chain := tok0.chain, address := tok0.address } = .ok tok0 ∧
    models.ProtocolType.from_storage (orm.ProtocolType.ofNew pt0.to_storage) = .ok pt0 ∧
    evm.ProtocolState.from_storage
      ((ps0.to_storage 5 6 7).map orm.ProtocolState.ofNew) ps0.component_id
      ps0.modify_tx = .ok ps0 ∧
    ∃ np, pc1.to_storage 1 2 42 0 pc1.created_at = .ok np ∧
      evm.ProtocolComponent.from_storage (orm.ProtocolComponent.ofNew np)
        pc1.tokens pc1.contract_ids pc1.chain pc1.protocol_system pc1.creation_tx =
        .ok { pc1 with protocol_type_name := toString (42 : Int),
                       change := evm.ChangeType.defaultValue } :=
  ⟨round_trip_amended.1 blk0 7 ⟨by decide, by decide, by decide⟩,
   round_trip_amended.2.1 tx0 3 ⟨by decide, by decide, by decide, by decide, by decide⟩,
   round_trip_amended.2.2.1 acct0 1 0 none
     ⟨by decide, by decide, by decide, by decide, by decide, by decide⟩,
   round_trip_amended.2.2.2.1 tok0 22 ⟨by decide, by decide, by decide, by decide⟩,
   round_trip_amended.2.2.2.2.1 pt0,
   round_trip_amended.2.2.2.2.2.1 ps0 5 6 7 ⟨by decide, by decide⟩,
   round_trip_amended.2.2.2.2.2.2 pc1 1 2 42 0 ⟨by decide, by decide⟩⟩

/-- C10: `StorableComponentBalance::to_storage` persists `previous_value` as
the encoded zero balance unconditionally (the prior balance of the component
is never consulted), while `new_balance`, `balance_float`,
`valid_from = block_ts` and `valid_to = None` are taken as given, together
with the supplied foreign keys. -/
theorem component_balance_zero_previous (x : evm.ComponentBalance)
    (token_id modify_tx protocol_component_id block_ts : Int) :
    (x.to_storage token_id modify_tx protocol_component_id block_ts).previous_value =
        balanceFromU256 0 ∧
    (x.to_storage token_id modify_tx protocol_component_id block_ts).new_balance = x.balance ∧
    (x.to_storage token_id modify_tx protocol_component_id block_ts).balance_float =
        x.balance_float ∧
    (x.to_storage token_id modify_tx protocol_component_id block_ts).valid_from = block_ts ∧
    (x.to_storage token_id modify_tx protocol_component_id block_ts).valid_to = none ∧
    (x.to_storage token_id modify_tx protocol_component_id block_ts).token_id = token_id ∧
    (x.to_storage token_id modify_tx protocol_component_id block_ts).modify_tx = modify_tx ∧
    (x.to_storage token_id modify_tx protocol_component_id block_ts).protocol_component_id =
        protocol_component_id :=
  ⟨rfl, rfl, rfl, rfl, rfl, rfl, rfl, rfl⟩

/-- C9: `StorableProtocolStateDelta::to_storage` produces exactly one new row
per updated attribute (carrying the attribute name and value, the given
transaction id, `valid_from` = the block timestamp, `valid_to = None`,
`previous_value = None`), is entirely independent of `deleted_attributes`, and
produces no row for a deleted attribute name (unless that same name is also
among the updated attributes): deletions are silently dropped. -/
theorem protocol_state_delta_rows (x : evm.ProtocolStateDelta)
    (protocol_component_id tx_id block_ts : Int) :
    x.to_storage protocol_component_id tx_id block_ts =
      x.updated_attributes.map (fun nv =>
        { protocol_component_id := protocol_component_id,
          attribute_name := some nv.1, attribute_value := some nv.2,
          previous_value := none, modify_tx := tx_id,
          valid_from := block_ts, valid_to := none }) ∧
    (x.to_storage protocol_component_id tx_id block_ts).length =
      x.updated_attributes.length ∧
    (∀ d : List String,
      evm.ProtocolStateDelta.to_storage
        { component_id := x.component_id, updated_attributes := x.updated_attributes,
          deleted_attributes := d } protocol_component_id tx_id block_ts =
      x.to_storage protocol_component_id tx_id block_ts) ∧
    (∀ name ∈ x.deleted_attributes, name ∉ x.updated_attributes.map (fun nv => nv.1) →
      ∀ row ∈ x.to_storage protocol_component_id tx_id block_ts,
        row.attribute_name ≠ some name) := by
  have hmap : x.to_storage protocol_component_id tx_id block_ts =
      x.updated_attributes.map (fun nv =>
        { protocol_component_id := protocol_component_id,
          attribute_name := some nv.1, attribute_value := some nv.2,
          previous_value := none, modify_tx := tx_id,
          valid_from := block_ts, valid_to := none }) := by
    unfold evm.ProtocolStateDelta.to_storage
    rw [foldl_push_eq_map]
    simp
  refine ⟨hmap, by rw [hmap]; simp, ?_, ?_⟩
  · intro d
    unfold evm.ProtocolStateDelta.to_storage
    rfl
  · intro name _ hnotin row hrow
    rw [hmap] at hrow
    rcases List.mem_map.mp hrow with ⟨nv, hnv, hrow⟩
    intro heq
    apply hnotin
    rw [← hrow] at heq
    simp only [Option.some.injEq] at heq
    exact heq ▸ List.mem_map_of_mem (fun nv => nv.1) hnv

/-- C9 witness: on the fixture delta, the deleted attribute name `"d"`
contributes no row. -/
theorem protocol_state_delta_rows_witness :
    ∀ row ∈ delta0.to_storage 1 2 3, row.attribute_name ≠ some "d" :=
  (protocol_state_delta_rows delta0 1 2 3).2.2.2 "d" (by decide) (by decide)

/-- C7: `version_to_ts` returns a `Timestamp` version unchanged, resolves the
absent version to the current wall-clock instant, resolves a block identifier
(hash, or chain and number) to the stored block's timestamp, and fails with
`NotFound` when no such block row exists. -/
theorem version_to_ts_spec :
    (∀ (store : Store) (now ts : Int),
      version_to_ts store now (some (.timestamp ts)) = .ok ts) ∧
    (∀ (store : Store) (now : Int), version_to_ts store now none = .ok now) ∧
    (∀ (store : Store) (now : Int) (h : Bytes) (b : BlockRow),
      (store.blocks.map (fun b => b.hash)).Nodup → b ∈ store.blocks → b.hash = h →
      version_to_ts store now (some (.block (.hash h))) = .ok b.ts) ∧
    (∀ (store : Store) (now : Int) (h : Bytes),
      (∀ b ∈ store.blocks, b.hash ≠ h) →
      version_to_ts store now (some (.block (.hash h))) =
        .error (.notFound "Block" (hexEncode h))) ∧
    (∀ (store : Store) (now : Int) (chain : Chain) (no : Int) (b : BlockRow),
      (store.blocks.map (fun b => (b.chain, b.number))).Nodup →
      b ∈ store.blocks → b.chain = chain → b.number = no →
      version_to_ts store now (some (.block (.number chain no))) = .ok b.ts) ∧
    (∀ (store : Store) (now : Int) (chain : Chain) (no : Int),
      (∀ b ∈ store.blocks, ¬(b.chain = chain ∧ b.number = no)) →
      version_to_ts store now (some (.block (.number chain no))) =
        .error (.notFound "Block" (toString no))) := by
  refine ⟨fun _ _ _ => rfl, fun _ _ => rfl, ?_, ?_, ?_, ?_⟩
  · intro store now h b hnd hb hbh
    have hfind : blockByHash store h = some b := by
      apply find?_eq_some_unique _ _ b hb (by simp [hbh])
      intro x hx hpx
      have hxh : x.hash = h := by simpa using hpx
      exact List.inj_on_of_nodup_map hnd hx hb (by rw [hxh, hbh])
    have hred : version_to_ts store now (some (.block (.hash h))) =
        (match blockByHash store h with
         | some b => Except.ok b.ts
         | none => Except.error (.notFound "Block" (hexEncode h))) := rfl
    rw [hred, hfind]
  · intro store now h hno
    have hfind : blockByHash store h = none := by
      apply List.find?_eq_none.mpr
      intro x hx
      simpa using hno x hx
    have hred : version_to_ts store now (some (.block (.hash h))) =
        (match blockByHash store h with
         | some b => Except.ok b.ts
         | none => Except.error (.notFound "Block" (hexEncode h))) := rfl
    rw [hred, hfind]
  · intro store now chain no b hnd hb hbc hbn
    have hfind : blockByNumber store chain no = some b := by
      apply find?_eq_some_unique _ _ b hb (by simp [hbc, hbn])
      intro x hx hpx
      have hxn : x.number = no := by
        have := congrArg (fun f => f && (x.number == no)) (rfl : (x.chain == chain) = _)
        simp only [Bool.and_eq_true, beq_iff_eq] at hpx
        exact hpx.2
      exact List.inj_on_of_nodup_map hnd hx hb
        (by
          have : x.number = b.number := by rw [hxn, hbn]
          rw [this, Chain.all_eq x.chain b.chain])
    have hred : version_to_ts store now (some (.block (.number chain no))) =
        (match blockByNumber store chain no with
         | some b => Except.ok b.ts
         | none => Except.error (.notFound "Block" (toString no))) := rfl
    rw [hred, hfind]
  · intro store now chain no hno
    have hfind : blockByNumber store chain no = none := by
      apply List.find?_eq_none.mpr
      intro x hx
      simp only [Bool.and_eq_true, beq_iff_eq, not_and]
      intro _ h2
      exact hno x hx ⟨Chain.all_eq x.chain chain, h2⟩
    have hred : version_to_ts store now (some (.block (.number chain no))) =
        (match blockByNumber store chain no with
         | some b => Except.ok b.ts
         | none => Except.error (.notFound "Block" (toString no))) := rfl
    rw [hred, hfind]

/-- C7 witness: on the fixture store, a timestamp version, the absent version,
the stored block (hash and number forms) and a missing hash. -/
theorem version_to_ts_spec_witness :
    version_to_ts tStore 0 (some (.timestamp 42)) = .ok 42 ∧
    version_to_ts tStore 17 none = .ok 17 ∧
    version_to_ts tStore 0 (some (.block (.hash (List.replicate 32 9)))) = .ok 1 ∧
    version_to_ts tStore 0 (some (.block (.number .ethereum 5))) = .ok 1 ∧
    version_to_ts tStore 0 (some (.block (.hash (List.replicate 32 1)))) =
      .error (.notFound "Block" (hexEncode (List.replicate 32 1))) :=
  ⟨version_to_ts_spec.1 tStore 0 42,
   version_to_ts_spec.2.1 tStore 17,
   version_to_ts_spec.2.2.1 tStore 0 (List.replicate 32 9)
     { chain := .ethereum, hash := List.replicate 32 9, number := 5, ts := 1 }
     (by decide) (by decide) (by decide),
   version_to_ts_spec.2.2.2.2.1 tStore 0 .ethereum 5
     { chain := .ethereum, hash := List.replicate 32 9, number := 5, ts := 1 }
     (by decide) (by decide) (by decide) (by decide),
   version_to_ts_spec.2.2.2.1 tStore 0 (List.replicate 32 1) (by decide)⟩

/-- C8 counterexample: with both versions resolving normally, an I/O failure
of the directional range query makes `get_slots_delta` panic (the source
`.unwrap()`s that query) instead of returning it as a `StoreFailure` error. -/
theorem range_query_failure_counterexample :
    get_slots_delta tStore tStore { rangeError := some "io", addrError := none }
        getCid1 .ethereum (some (.timestamp 0)) (some (.timestamp 3)) 0 =
      .crash "io" ∧
    Outcome.crash "io" ≠
      (Outcome.err (.storeFailure "io") :
        Outcome (List (Bytes × List (Nat × Nat)))) := by
  exact ⟨rfl, by simp⟩

/-- C8 amended: an underlying I/O failure of the batch address query is
returned to the caller as a `StoreFailure` error, passed through without
reinterpretation; an I/O failure of the directional range query, however, is
`.unwrap()`ed and crashes the call instead of being returned. -/
theorem store_failure_amended :
    (∀ (store astore : Store) (faults : Faults) (g : Chain → Int) (chain : Chain)
      (vs vt : Option BlockOrTimestamp) (now ts_s ts_t : Int) (msg : String),
      version_to_ts store now vs = .ok ts_s → version_to_ts store now vt = .ok ts_t →
      faults.rangeError = none → faults.addrError = some msg →
      get_slots_delta store astore faults g chain vs vt now =
        .err (.storeFailure msg)) ∧
    (∀ (store astore : Store) (faults : Faults) (g : Chain → Int) (chain : Chain)
      (vs vt : Option BlockOrTimestamp) (now ts_s ts_t : Int) (msg : String),
      version_to_ts store now vs = .ok ts_s → version_to_ts store now vt = .ok ts_t →
      faults.rangeError = some msg →
      get_slots_delta store astore faults g chain vs vt now = .crash msg) := by
  constructor
  · intro store astore faults g chain vs vt now ts_s ts_t msg hs ht hr ha
    unfold get_slots_delta
    rw [hs, ht, hr, ha]
    rfl
  · intro store astore faults g chain vs vt now ts_s ts_t msg hs ht hr
    unfold get_slots_delta
    rw [hs, ht, hr]

/-- C8 witness: the amended behaviour at the fixture store. -/
theorem store_failure_amended_witness :
    get_slots_delta tStore tStore { rangeError := none, addrError := some "io" }
        getCid1 .ethereum (some (.timestamp 0)) (some (.timestamp 3)) 0 =
      .err (.storeFailure "io") ∧
    get_slots_delta tStore tStore { rangeError := some "boom", addrError := none }
        getCid1 .ethereum (some (.timestamp 0)) (some (.timestamp 3)) 0 =
      .crash "boom" :=
  ⟨store_failure_amended.1 tStore tStore _ getCid1 .ethereum _ _ 0 0 3 "io"
     rfl rfl rfl rfl,
   store_failure_amended.2 tStore tStore _ getCid1 .ethereum _ _ 0 0 3 "boom"
     rfl rfl rfl⟩

/-- C3: a `get_slots_delta` call whose start and target version are the same
resolving specifier returns the empty map — the equal-endpoint half-open range
is empty in both directions. -/
theorem identity_delta_empty (store addrStore : Store) (g : Chain → Int) (chain : Chain)
    (v : Option BlockOrTimestamp) (now t : Int)
    (hres : version_to_ts store now v = .ok t) :
    get_slots_delta store addrStore noFaults g chain v v now = .ok [] := by
  have hempty : inRange store (g chain) t t = [] := by
    apply List.filter_eq_nil_iff.mpr
    intro r _
    simp only [Bool.and_eq_true, decide_eq_true_eq, not_and]
    intro h1 h2
    omega
  unfold get_slots_delta
  rw [hres]
  simp only [noFaults, le_refl, if_true]
  simp only [forwardQuery, hempty, sortBy, dedupOn, List.map_nil]
  have haddr : addrQueryRows addrStore ([] : List (Int × Bytes × Option Bytes)) = [] := by
    simp [addrQueryRows]
  rw [haddr]
  rfl

/-- C3 witness: the identity call on the fixture store, with a timestamp
version. -/
theorem identity_delta_empty_witness :
    get_slots_delta tStore tStore noFaults getCid1 .ethereum
      (some (.timestamp 2)) (some (.timestamp 2)) 0 = .ok [] :=
  identity_delta_empty tStore tStore getCid1 .ethereum (some (.timestamp 2)) 0 2 rfl

end Tycho
